import Mathlib

/-!
Verification of the insightOS AI-copilot pipeline.

This file is a shallow embedding, in Lean 4, of the AI-response pipeline of
the insightOS dashboard repository: the JSON repair-and-validate engine and
safe fallback of the `/api/ai` route handler, the server-side stream framer,
the client-side NDJSON stream consumer, the context sanitizer, and the
copilot action dispatcher.  JavaScript strings are modelled as `List Char`
(Lean `String` at the API boundary), JavaScript numbers as `ℚ` (every IEEE
double is an exact finite decimal, hence an exact rational), JSON values as
an inductive tree, and the host-side callbacks of the dispatcher as an
explicit effect list.  All definitions are executable and translated from
the repository's TypeScript sources; the theorems at the end of the file
settle the specification claims.
-/

/-! ## JSON values

A parsed JSON document, as produced by the JavaScript built-in
`JSON.parse`.  Numbers carry their exact rational value (the value
semantics of JavaScript number literals, which are always exact finite
decimals when they come out of `JSON.stringify`).  Objects carry their
member list in source order; a duplicate key keeps both entries in the
tree, and `jlookup` below resolves a key to its last occurrence, which is
the value the corresponding JavaScript object would hold.
-/

inductive Json where
  | null : Json
  | bool (b : Bool) : Json
  | num (q : ℚ) : Json
  | str (s : String) : Json
  | arr (elements : List Json) : Json
  | obj (members : List (String × Json)) : Json
deriving Repr

/-- Property lookup on a JavaScript object built from a member list: a later
assignment to the same key overwrites an earlier one, so the last
occurrence wins. -/
def jlookup (members : List (String × Json)) (key : String) : Option Json :=
  members.foldl (fun acc kv => if kv.1 = key then some kv.2 else acc) none

/-! ## Character classes and low-level scanning -/

/-- The backquote character (0x60), written by code point. -/
def backquote : Char := Char.ofNat 96

/-- Whitespace as the JSON grammar defines it (RFC 8259): space, tab,
line feed, carriage return.  This is what `JSON.parse` skips between
tokens. -/
def isJsonWs (c : Char) : Bool :=
  c = ' ' || c = '\t' || c = '\n' || c = '\r'

/-- Whitespace as JavaScript's `String.prototype.trim` and the regexp
class `\s` recognise it (ECMAScript WhiteSpace plus LineTerminator): the
JSON whitespace characters, vertical tab, form feed, NBSP, the Unicode
space separators U+1680, U+2000..U+200A, U+202F, U+205F and U+3000, the
line terminators U+2028 and U+2029, and the BOM. -/
def isJsWs (c : Char) : Bool :=
  c = ' ' || c = '\t' || c = '\n' || c = '\r' ||
  c = Char.ofNat 11 || c = Char.ofNat 12 || c = Char.ofNat 160 ||
  c = Char.ofNat 0x1680 ||
  (Char.ofNat 0x2000 ≤ c && c ≤ Char.ofNat 0x200A) ||
  c = Char.ofNat 0x202F || c = Char.ofNat 0x205F || c = Char.ofNat 0x3000 ||
  c = Char.ofNat 0x2028 || c = Char.ofNat 0x2029 ||
  c = Char.ofNat 65279

/-- Drop leading JSON whitespace. -/
def dropWs : List Char → List Char
  | [] => []
  | c :: cs => if isJsonWs c then dropWs cs else c :: cs

/-- JavaScript `trim` on a character list: strip whitespace from both
ends. -/
def jsTrimL (cs : List Char) : List Char :=
  ((cs.dropWhile isJsWs).reverse.dropWhile isJsWs).reverse

/-- JavaScript `String.prototype.trim`. -/
def jsTrim (s : String) : String :=
  String.mk (jsTrimL s.data)

/-- Decimal digit test, `[0-9]`. -/
def isDig (c : Char) : Bool := '0' ≤ c && c ≤ '9'

/-- Numeric value of a decimal digit character. -/
def digOf (c : Char) : Nat := c.toNat - 48

/-- Split off the longest leading run of decimal digits. -/
def grabDigits : List Char → List Char × List Char
  | [] => ([], [])
  | c :: cs =>
      if isDig c then
        let (ds, rest) := grabDigits cs
        (c :: ds, rest)
      else ([], c :: cs)

/-- Value of a digit string, most significant digit first. -/
def digitsVal (ds : List Char) : Nat :=
  ds.foldl (fun a c => 10 * a + digOf c) 0

/-- Value of a hexadecimal digit character, if it is one. -/
def hexNibble (c : Char) : Option Nat :=
  if '0' ≤ c && c ≤ '9' then some (c.toNat - 48)
  else if 'a' ≤ c && c ≤ 'f' then some (c.toNat - 87)
  else if 'A' ≤ c && c ≤ 'F' then some (c.toNat - 55)
  else none

/-- Value of a four-digit hexadecimal escape. -/
def hexQuad (a b c d : Char) : Option Nat := do
  let x ← hexNibble a
  let y ← hexNibble b
  let z ← hexNibble c
  let w ← hexNibble d
  return ((x * 16 + y) * 16 + z) * 16 + w

/-- The single-character JSON escapes of RFC 8259 / ECMA-404. -/
def unescChar (c : Char) : Option Char :=
  if c = '"' then some '"'
  else if c = '\\' then some '\\'
  else if c = '/' then some '/'
  else if c = 'b' then some (Char.ofNat 8)
  else if c = 'f' then some (Char.ofNat 12)
  else if c = 'n' then some '\n'
  else if c = 'r' then some '\r'
  else if c = 't' then some '\t'
  else none

/-! ## String bodies

`parseJStringBody` consumes the characters of a JSON string after its
opening quote, resolving escapes, and returns the decoded characters
together with the input following the closing quote.  As in `JSON.parse`:
a raw control character (below 0x20) is an error, `\uXXXX` escapes are
resolved, and a high surrogate escape must be completed by a low one (the
pair decodes to one supplementary character; a lone surrogate is
rejected, since a Lean `Char` is a Unicode scalar value). -/

def parseJStringBody : Nat → List Char → Option (List Char × List Char)
  | 0, _ => none
  | fuel + 1, cs =>
      match cs with
      | [] => none
      | c :: cs1 =>
          if c = '"' then some ([], cs1)
          else if c = '\\' then
            match cs1 with
            | [] => none
            | e :: cs2 =>
                if e = 'u' then
                  match cs2 with
                  | a :: b :: c3 :: d :: cs3 =>
                      match hexQuad a b c3 d with
                      | none => none
                      | some n =>
                          if 0xD800 ≤ n && n < 0xDC00 then
                            match cs3 with
                            | a2 :: b2 :: a3 :: b3 :: c4 :: d4 :: cs4 =>
                                if a2 = '\\' && b2 = 'u' then
                                  match hexQuad a3 b3 c4 d4 with
                                  | none => none
                                  | some m =>
                                      if 0xDC00 ≤ m && m < 0xE000 then
                                        (parseJStringBody fuel cs4).map
                                          (fun p =>
                                            (Char.ofNat
                                              (0x10000 + (n - 0xD800) * 0x400 +
                                                (m - 0xDC00)) :: p.1, p.2))
                                      else none
                                else none
                            | _ => none
                          else if 0xDC00 ≤ n && n < 0xE000 then none
                          else
                            (parseJStringBody fuel cs3).map
                              (fun p => (Char.ofNat n :: p.1, p.2))
                  | _ => none
                else
                  match unescChar e with
                  | none => none
                  | some r =>
                      (parseJStringBody fuel cs2).map (fun p => (r :: p.1, p.2))
          else if c.toNat < 32 then none
          else (parseJStringBody fuel cs1).map (fun p => (c :: p.1, p.2))

/-! ## Numbers

`parseJNumber` reads a JSON numeric literal (sign, integer part with the
no-leading-zero rule, optional fraction, optional exponent) and returns
its exact rational value: the value semantics of `JSON.parse`, which
evaluates the literal to a number. -/

/-- The integer part of a JSON numeric literal: a bare `0`, or a nonzero
digit followed by more digits (the grammar's no-leading-zero rule). -/
def parseIntPart : List Char → Option (Nat × List Char)
  | [] => none
  | c :: r =>
      if c = '0' then
        match r with
        | d :: _ => if isDig d then none else some (0, r)
        | [] => some (0, [])
      else if isDig c then
        let (ds, rest) := grabDigits (c :: r)
        some (digitsVal ds, rest)
      else none

/-- The optional fraction of a JSON numeric literal: its value, its digit
count, and the remaining input (a missing fraction is `0` over `0`
digits; a dot with no digit after it is an error). -/
def parseFracPart : List Char → Option (Nat × Nat × List Char)
  | '.' :: r3 =>
      let (fs, r4) := grabDigits r3
      if fs = [] then none else some (digitsVal fs, fs.length, r4)
  | other => some (0, 0, other)

/-- The optional exponent of a JSON numeric literal (a missing exponent
is `0`; `e`/`E` with no digit after the optional sign is an error). -/
def parseExpPart : List Char → Option (Int × List Char)
  | [] => some (0, [])
  | e :: r6 =>
      if e = 'e' || e = 'E' then
        let (esgn, r7) : Int × List Char :=
          match r6 with
          | '+' :: r8 => (1, r8)
          | '-' :: r8 => (-1, r8)
          | _ => (1, r6)
        let (es, r9) := grabDigits r7
        if es = [] then none else some (esgn * digitsVal es, r9)
      else some (0, e :: r6)

/-- The unsigned part of a JSON numeric literal, evaluated to its exact
rational value. -/
def parseJNumBody (cs1 : List Char) : Option (ℚ × List Char) := do
  let (i, r2) ← parseIntPart cs1
  let (f, fl, r5) ← parseFracPart r2
  let (ex, r10) ← parseExpPart r5
  return (((i : ℚ) + (f : ℚ) / (10 : ℚ) ^ fl) * (10 : ℚ) ^ ex, r10)

def parseJNumber (cs : List Char) : Option (ℚ × List Char) :=
  match cs with
  | '-' :: r => (parseJNumBody r).map (fun p => (-p.1, p.2))
  | _ => parseJNumBody cs

/-! ## The value parser

Fuel-indexed so that every recursion is structural (and hence reduces in
the kernel); `jsonParse` below supplies more fuel than the input length,
which the round-trip theorems show is always enough. -/

mutual

def parseJValue : Nat → List Char → Option (Json × List Char)
  | 0, _ => none
  | fuel + 1, cs =>
      match dropWs cs with
      | 'n' :: 'u' :: 'l' :: 'l' :: r => some (.null, r)
      | 't' :: 'r' :: 'u' :: 'e' :: r => some (.bool true, r)
      | 'f' :: 'a' :: 'l' :: 's' :: 'e' :: r => some (.bool false, r)
      | '"' :: r =>
          match parseJStringBody (r.length + 1) r with
          | none => none
          | some (body, rest) => some (.str (String.mk body), rest)
      | '[' :: r =>
          match dropWs r with
          | ']' :: rest => some (.arr [], rest)
          | other =>
              match parseJItems fuel other with
              | none => none
              | some (vs, rest) => some (.arr vs, rest)
      | '{' :: r =>
          match dropWs r with
          | '}' :: rest => some (.obj [], rest)
          | other =>
              match parseJMembers fuel other with
              | none => none
              | some (ms, rest) => some (.obj ms, rest)
      | c :: r =>
          if c = '-' || isDig c then
            match parseJNumber (c :: r) with
            | none => none
            | some (q, rest) => some (.num q, rest)
          else none
      | [] => none

def parseJItems : Nat → List Char → Option (List Json × List Char)
  | 0, _ => none
  | fuel + 1, cs =>
      match parseJValue fuel cs with
      | none => none
      | some (v, r) =>
          match dropWs r with
          | ',' :: r2 =>
              match parseJItems fuel r2 with
              | none => none
              | some (vs, rest) => some (v :: vs, rest)
          | ']' :: rest => some ([v], rest)
          | _ => none

def parseJMembers : Nat → List Char → Option (List (String × Json) × List Char)
  | 0, _ => none
  | fuel + 1, cs =>
      match dropWs cs with
      | '"' :: r =>
          match parseJStringBody (r.length + 1) r with
          | none => none
          | some (key, r1) =>
              match dropWs r1 with
              | ':' :: r2 =>
                  match parseJValue fuel r2 with
                  | none => none
                  | some (v, r3) =>
                      match dropWs r3 with
                      | ',' :: r4 =>
                          match parseJMembers fuel r4 with
                          | none => none
                          | some (ms, rest) =>
                              some ((String.mk key, v) :: ms, rest)
                      | '}' :: rest => some ([(String.mk key, v)], rest)
                      | _ => none
              | _ => none
      | _ => none

end

/-- The JavaScript built-in `JSON.parse`, embedded: parse one complete
JSON document, allowing surrounding whitespace and rejecting trailing
content; `none` models the `SyntaxError` throw. -/
def jsonParse (s : String) : Option Json :=
  match parseJValue (s.data.length + 1) s.data with
  | none => none
  | some (j, rest) => if dropWs rest = [] then some j else none

/-! ## Rendering (the `JSON.stringify` embedding) -/

/-- Hexadecimal digit character (lowercase), as `JSON.stringify` emits in
`\u00XX` escapes. -/
def hexDigitChar (n : Nat) : Char :=
  if n < 10 then Char.ofNat (48 + n) else Char.ofNat (87 + n)

/-- How `JSON.stringify` escapes one character inside a string literal:
quote, backslash and the named control escapes get two-character forms,
any other control character a `\u00XX` form, and everything else stands
for itself. -/
def escapeChar (c : Char) : List Char :=
  if c = '"' then ['\\', '"']
  else if c = '\\' then ['\\', '\\']
  else if c = '\n' then ['\\', 'n']
  else if c = '\r' then ['\\', 'r']
  else if c = '\t' then ['\\', 't']
  else if c = Char.ofNat 8 then ['\\', 'b']
  else if c = Char.ofNat 12 then ['\\', 'f']
  else if c.toNat < 32 then
    ['\\', 'u', '0', '0', hexDigitChar (c.toNat / 16), hexDigitChar (c.toNat % 16)]
  else [c]

/-- Escape every character of a string body. -/
def escList : List Char → List Char
  | [] => []
  | c :: cs => escapeChar c ++ escList cs

/-- A rendered string literal: quote, escaped body, quote. -/
def strLit (s : String) : List Char :=
  '"' :: (escList s.data ++ ['"'])

/-- Decimal digits of `n`, most significant first (fuel-indexed to keep
the recursion structural; `digitsOf` supplies enough). -/
def natChars : Nat → Nat → List Char
  | 0, _ => []
  | fuel + 1, n =>
      if n < 10 then [Char.ofNat (48 + n)]
      else natChars fuel (n / 10) ++ [Char.ofNat (48 + n % 10)]

/-- Decimal digit characters of `n`, most significant first. -/
def digitsOf (n : Nat) : List Char := natChars (n + 1) n

/-- Multiplicity of the prime `p` in `n` (fuel-indexed trial division). -/
def padicCount (p : Nat) : Nat → Nat → Nat
  | 0, _ => 0
  | fuel + 1, n =>
      if 2 ≤ p && n % p = 0 && n ≠ 0 then padicCount p fuel (n / p) + 1 else 0

/-- The least number of decimal fraction digits that write `q` exactly,
assuming `q` has a finite decimal expansion: with `q.den = 2^a * 5^b` in
lowest terms this is `max a b`. -/
def decPow (q : ℚ) : Nat :=
  max (padicCount 2 q.den q.den) (padicCount 5 q.den q.den)

/-- Whether `q` has a finite decimal expansion, that is, whether its
reduced denominator is of the form `2^a * 5^b`.  Every JavaScript number
(an IEEE double, a binary fraction) satisfies this. -/
def isDecRep (q : ℚ) : Bool :=
  q.den = 2 ^ padicCount 2 q.den q.den * 5 ^ padicCount 5 q.den q.den

/-- Render a rational in the plain decimal notation `JSON.stringify` uses
for doubles in the pipeline's range: optional minus sign, integer digits,
and a fraction part exactly when one is needed.  (For magnitudes outside
`[1e-6, 1e21)` JavaScript would switch to exponent notation; the rendered
value is the same number, and no such score arises in this pipeline.) -/
def renderQ (q : ℚ) : List Char :=
  let a : ℚ := |q|
  let k := decPow a
  let m := (a * (10 : ℚ) ^ k).num.toNat
  let sgn : List Char := if q < 0 then ['-'] else []
  if k = 0 then sgn ++ digitsOf m
  else
    sgn ++ digitsOf (m / 10 ^ k) ++
      '.' :: (List.replicate (k - (digitsOf (m % 10 ^ k)).length) '0' ++
        digitsOf (m % 10 ^ k))

mutual

def stringifyL : Json → List Char
  | .null => ("null").data
  | .bool true => ("true").data
  | .bool false => ("false").data
  | .num q => renderQ q
  | .str s => strLit s
  | .arr es => '[' :: (stringifyItems es ++ [']'])
  | .obj ms => '{' :: (stringifyMembers ms ++ ['}'])

def stringifyItems : List Json → List Char
  | [] => []
  | [e] => stringifyL e
  | e :: es => stringifyL e ++ ',' :: stringifyItems es

def stringifyMembers : List (String × Json) → List Char
  | [] => []
  | [(k, v)] => strLit k ++ ':' :: stringifyL v
  | (k, v) :: ms => strLit k ++ ':' :: stringifyL v ++ ',' :: stringifyMembers ms

end

/-- The JavaScript built-in `JSON.stringify` (no indent argument),
embedded: compact rendering with no whitespace between tokens. -/
def jsonStringify (j : Json) : String :=
  String.mk (stringifyL j)

/-! ## The copilot schema (`src/lib/validators/copilot-schema.ts`)

The zod schemas are embedded as pure decoders `Json → Option _`: `none`
models `safeParse` reporting failure.  `.strict()` objects reject unknown
keys; every declared key must be present with a conforming value. -/

inductive Severity where
  | low : Severity
  | medium : Severity
  | high : Severity
deriving Repr, DecidableEq

/-- The closed action-type vocabulary of `ActionTypeSchema`. -/
inductive CopilotActionKind where
  | APPLY_FILTER : CopilotActionKind
  | EXPORT_REPORT : CopilotActionKind
  | HIGHLIGHT_METRIC : CopilotActionKind
deriving Repr, DecidableEq

structure Insight where
  title : String
  description : String
  severity : Severity
deriving Repr

structure SuggestedAction where
  label : String
  actionType : CopilotActionKind
  payload : List (String × Json)
deriving Repr

/-- A validated `CopilotResponse` (the spec's `StructuredResponse`). -/
structure CopilotResponse where
  summary : String
  insights : List Insight
  suggestedActions : List SuggestedAction
  warnings : List String
  confidenceScore : ℚ
deriving Repr

def asString : Json → Option String
  | .str s => some s
  | _ => none

def asNumber : Json → Option ℚ
  | .num q => some q
  | _ => none

def asArray : Json → Option (List Json)
  | .arr es => some es
  | _ => none

def asObject : Json → Option (List (String × Json))
  | .obj ms => some ms
  | _ => none

/-- Whether every key of a member list is drawn from the allowed set: the
`.strict()` unknown-key check. -/
def keysAllowed (members : List (String × Json)) (allowed : List String) : Bool :=
  members.all (fun kv => allowed.contains kv.1)

def severityOfString (s : String) : Option Severity :=
  if s = "low" then some Severity.low
  else if s = "medium" then some Severity.medium
  else if s = "high" then some Severity.high
  else none

def actionKindOfString (s : String) : Option CopilotActionKind :=
  if s = "APPLY_FILTER" then some CopilotActionKind.APPLY_FILTER
  else if s = "EXPORT_REPORT" then some CopilotActionKind.EXPORT_REPORT
  else if s = "HIGHLIGHT_METRIC" then some CopilotActionKind.HIGHLIGHT_METRIC
  else none

/-- Decode every element of a list, failing if any element fails. -/
def decodeAll (f : Json → Option α) : List Json → Option (List α)
  | [] => some []
  | j :: js =>
      match f j with
      | none => none
      | some a =>
          match decodeAll f js with
          | none => none
          | some rest => some (a :: rest)

/-- The `InsightSchema` decoder: `{title, description, severity}`, strict. -/
def decodeInsight (j : Json) : Option Insight :=
  match j with
  | .obj ms =>
      if keysAllowed ms ["title", "description", "severity"] then do
        let t ← (jlookup ms ("title")).bind asString
        let d ← (jlookup ms ("description")).bind asString
        let sv ← ((jlookup ms ("severity")).bind asString).bind severityOfString
        return { title := t, description := d, severity := sv }
      else none
  | _ => none

/-- The `SuggestedActionSchema` decoder: `{label, actionType, payload}`,
strict, with an open-record payload. -/
def decodeSuggestedAction (j : Json) : Option SuggestedAction :=
  match j with
  | .obj ms =>
      if keysAllowed ms ["label", "actionType", "payload"] then do
        let l ← (jlookup ms ("label")).bind asString
        let k ← ((jlookup ms ("actionType")).bind asString).bind actionKindOfString
        let p ← (jlookup ms ("payload")).bind asObject
        return { label := l, actionType := k, payload := p }
      else none
  | _ => none

/-- `CopilotResponseSchema.safeParse`: the strict five-field response
schema with the `[0, 1]` bound on `confidenceScore`. -/
def copilotSafeParse (j : Json) : Option CopilotResponse :=
  match j with
  | .obj ms =>
      if keysAllowed ms
          ["summary", "insights", "suggestedActions", "warnings", "confidenceScore"] then do
        let s ← (jlookup ms ("summary")).bind asString
        let ins ← ((jlookup ms ("insights")).bind asArray).bind (decodeAll decodeInsight)
        let acts ← ((jlookup ms ("suggestedActions")).bind asArray).bind
          (decodeAll decodeSuggestedAction)
        let ws ← ((jlookup ms ("warnings")).bind asArray).bind (decodeAll asString)
        let score ← (jlookup ms ("confidenceScore")).bind asNumber
        if 0 ≤ score ∧ score ≤ 1 then
          return { summary := s, insights := ins, suggestedActions := acts,
                   warnings := ws, confidenceScore := score }
        else none
      else none
  | _ => none

/-- `RequestBodySchema.safeParse`: `{query: string min 1, context: record}`,
non-strict (unknown keys are permitted and stripped). -/
def requestBodySafeParse (j : Json) : Option (String × List (String × Json)) :=
  match j with
  | .obj ms => do
      let q ← (jlookup ms ("query")).bind asString
      if q.length ≥ 1 then
        let ctx ← (jlookup ms ("context")).bind asObject
        return (q, ctx)
      else none
  | _ => none

/-! ## Canonical JSON encodings of validated values (for the round trip) -/

def severityString : Severity → String
  | .low => "low"
  | .medium => "medium"
  | .high => "high"

def actionKindString : CopilotActionKind → String
  | .APPLY_FILTER => "APPLY_FILTER"
  | .EXPORT_REPORT => "EXPORT_REPORT"
  | .HIGHLIGHT_METRIC => "HIGHLIGHT_METRIC"

def insightToJson (i : Insight) : Json :=
  .obj [("title", .str i.title), ("description", .str i.description),
        ("severity", .str (severityString i.severity))]

def suggestedActionToJson (a : SuggestedAction) : Json :=
  .obj [("label", .str a.label), ("actionType", .str (actionKindString a.actionType)),
        ("payload", .obj a.payload)]

/-- The JSON object a `CopilotResponse` value serializes to (what
`JSON.stringify` receives when the route, or a test, writes one out). -/
def responseToJson (r : CopilotResponse) : Json :=
  .obj [("summary", .str r.summary),
        ("insights", .arr (r.insights.map insightToJson)),
        ("suggestedActions", .arr (r.suggestedActions.map suggestedActionToJson)),
        ("warnings", .arr (r.warnings.map Json.str)),
        ("confidenceScore", .num r.confidenceScore)]

/-! ## The route handler's constants and helpers (`src/unnamed/part_013`) -/

/-- The safe fallback of ai-behavior-contract Section 9 (`FALLBACK_RESPONSE`). -/
def FALLBACK_RESPONSE : CopilotResponse :=
  { summary := "Unable to analyze dashboard data at this time."
    insights := []
    suggestedActions := []
    warnings := ["AI response validation failed."]
    confidenceScore := 0 }

/-! ### `extractJson`

The helper strips one markdown fence via the regexp
`/^```(?:json)?\s*\n?([\s\S]*?)\n?\s*```$/m` and then slices from the
first `{` to the last `}`.  The regexp is modelled directly: with the `m`
flag, `^` anchors at the string start or after a newline and `$` at the
end or before a newline; the lazy group makes the close the earliest
position from which optional whitespace followed by a backquote fence ends
a line.  `fenceExec` returns the captured group of the leftmost match. -/

def fenceChars : List Char := [backquote, backquote, backquote]

def jsonTagChars : List Char := ['j', 's', 'o', 'n']

/-- The ECMAScript LineTerminator characters: LF, CR, LINE SEPARATOR
U+2028 and PARAGRAPH SEPARATOR U+2029.  The `m`-flag anchors `^` and `$`
of the fence regexp match around every one of them. -/
def isLineTerm (c : Char) : Bool :=
  c = '\n' || c = '\r' || c = Char.ofNat 0x2028 || c = Char.ofNat 0x2029

/-- Whether a character list is free of raw line terminators, as
`JSON.stringify` output is exactly when its strings hold no U+2028 or
U+2029 (LF and CR are escaped). -/
def noLineTerm (cs : List Char) : Bool :=
  cs.all (fun d => !(isLineTerm d))

/-- Whether a line ends at this position: end of input, or a line
terminator next (the `$` of a multiline regexp). -/
def lineEndsHere : List Char → Bool
  | [] => true
  | d :: _ => isLineTerm d

/-- Whether the closing `\n?\s*```$` of the fence regexp matches at this
position. -/
def fenceCloseHere (cs : List Char) : Bool :=
  match cs.dropWhile isJsWs with
  | a :: b :: c :: rest =>
      a = backquote && b = backquote && c = backquote && lineEndsHere rest
  | _ => false

/-- The lazy group: the characters before the earliest fence close, or
`none` if no close follows. -/
def fenceBody : List Char → Option (List Char)
  | [] => if fenceCloseHere [] then some [] else none
  | c :: rest =>
      if fenceCloseHere (c :: rest) then some []
      else (fenceBody rest).map (fun g => c :: g)

/-- Try the whole fence pattern anchored at this position: the opening
backquote fence, an optional `json` tag, optional whitespace, then the
lazy group up to the close. -/
def fenceAt (cs : List Char) : Option (List Char) :=
  if fenceChars.isPrefixOf cs then
    let r := cs.drop 3
    let r2 := if jsonTagChars.isPrefixOf r then r.drop 4 else r
    fenceBody (r2.dropWhile isJsWs)
  else none

/-- Try the fence pattern at every later line start (`^` under the `m`
flag anchors right after every line terminator). -/
def fenceAfterNl : List Char → Option (List Char)
  | [] => none
  | c :: rest =>
      if isLineTerm c then
        match fenceAt rest with
        | some g => some g
        | none => fenceAfterNl rest
      else fenceAfterNl rest

/-- The captured group of the leftmost match of the fence regexp. -/
def fenceExec (cs : List Char) : Option (List Char) :=
  match fenceAt cs with
  | some g => some g
  | none => fenceAfterNl cs

def firstIdxOf (c : Char) (cs : List Char) : Option Nat :=
  cs.findIdx? (fun d => d = c)

def lastIdxOf (c : Char) (cs : List Char) : Option Nat :=
  match cs.reverse.findIdx? (fun d => d = c) with
  | none => none
  | some k => some (cs.length - 1 - k)

/-- Slice from the first `{` to the last `}`, if the last is beyond the
first (`indexOf` / `lastIndexOf` / `slice` in the source). -/
def braceSlice (cs : List Char) : List Char :=
  match firstIdxOf '{' cs, lastIdxOf '}' cs with
  | some i, some j => if i < j then (cs.drop i).take (j + 1 - i) else cs
  | some _, none => cs
  | none, _ => cs

/-- The route's `extractJson`: trim, strip one fenced block when the
regexp matches with a nonempty group (an empty captured group is falsy in
the source's `if (fenceMatch?.[1])` test), then slice to the outer brace
span. -/
def extractJson (raw : String) : String :=
  let t := jsTrimL raw.data
  let t2 :=
    match fenceExec t with
    | some g => if g ≠ [] then jsTrimL g else t
    | none => t
  String.mk (braceSlice t2)

/-- Attempt 2 of `parseAndValidate`: extract a JSON substring, re-parse,
re-validate. -/
def repairAttempt (raw : String) : Option CopilotResponse :=
  match jsonParse (extractJson raw) with
  | none => none
  | some parsed => copilotSafeParse parsed

/-- The route's `parseAndValidate`: direct parse-and-validate first, the
single repair pass if that fails in either way, `null` (here `none`) if
both fail. -/
def parseAndValidate (raw : String) : Option CopilotResponse :=
  match jsonParse raw with
  | some parsed =>
      match copilotSafeParse parsed with
      | some r => some r
      | none => repairAttempt raw
  | none => repairAttempt raw

/-! ## The POST handler's pre-stream stages (environment and body) -/

/-- The configuration the route reads from `process.env`.  `none` models
an unset variable; a set-but-empty string is falsy in the source's checks
and handled below. -/
structure RouteEnv where
  OPENAI_API_KEY : Option String
  LLM_MODEL : Option String

/-- Truthiness of an optional environment string: missing or empty is
falsy. -/
def envFalsy : Option String → Bool
  | none => true
  | some s => s = ""

/-- Body of an early (non-streaming) JSON response.  `errorEnvelope`
stands for the literal `{error: msg}` object (the invalid-body variant
also carries the zod issue list, which is not modelled beyond the
message). -/
inductive EarlyBody where
  | copilotJson (r : CopilotResponse) : EarlyBody
  | errorEnvelope (error : String) : EarlyBody

/-- What the handler decides before any model traffic: an early response,
or a committed provider call carrying the validated query and context. -/
inductive PostStep where
  | respond (status : Nat) (body : EarlyBody) : PostStep
  | callModel (query : String) (context : List (String × Json)) : PostStep

/-- Steps 1–2 of `POST /api/ai`: validate the environment (key first,
then model), then parse and validate the request body; only a fully
validated request reaches the provider call. -/
def handlePost (env : RouteEnv) (bodyText : String) : PostStep :=
  if envFalsy env.OPENAI_API_KEY then
    .respond 503 (.copilotJson FALLBACK_RESPONSE)
  else if envFalsy env.LLM_MODEL then
    .respond 503 (.copilotJson FALLBACK_RESPONSE)
  else
    match jsonParse bodyText with
    | none => .respond 400 (.errorEnvelope "Request body must be valid JSON")
    | some j =>
        match requestBodySafeParse j with
        | none => .respond 400 (.errorEnvelope "Invalid request body")
        | some qc => .callModel qc.1 qc.2

/-! ## The server-side stream framer (the `ReadableStream start` closure) -/

/-- One event of the NDJSON wire contract. -/
inductive StreamEvent where
  | token (content : String) : StreamEvent
  | done (payload : CopilotResponse) : StreamEvent
deriving Repr

/-- The nonempty deltas of the provider chunks, in provider order: chunk
`delta.content` values that pass the source's `if (delta)` truthiness
test (`none` models a chunk with no content delta, and an empty string is
falsy). -/
def deltaTokens (chunks : List (Option String)) : List String :=
  (chunks.filterMap id).filter (fun d => d ≠ "")

/-- The accumulated `fullContent` after the provider closes. -/
def accumContent (chunks : List (Option String)) : String :=
  (deltaTokens chunks).foldl (fun a d => a ++ d) ""

/-- Step 5 of the stream closure: empty accumulation goes straight to the
fallback, otherwise the repair-and-validate engine decides between the
validated payload and the fallback. -/
def streamFinal (fullContent : String) : CopilotResponse :=
  if fullContent = "" then FALLBACK_RESPONSE
  else
    match parseAndValidate fullContent with
    | some v => v
    | none => FALLBACK_RESPONSE

/-- The ordered event sequence the `ReadableStream` emits before closing:
`chunks` are the provider chunks iterated before the stream ended, and
`errored` whether iteration ended in a thrown provider error (the `catch`
branch) rather than normal completion. -/
def frameStream (chunks : List (Option String)) (errored : Bool) : List StreamEvent :=
  let toks := (deltaTokens chunks).map StreamEvent.token
  if errored then toks ++ [StreamEvent.done FALLBACK_RESPONSE]
  else toks ++ [StreamEvent.done (streamFinal (accumContent chunks))]

/-! ## The client-side NDJSON consumer (`consumeStream` in CopilotInput) -/

/-- JavaScript `buffer.split("\n")` on a character list: always nonempty,
with an empty final segment when the buffer ends in a newline. -/
def splitNl : List Char → List (List Char)
  | [] => [[]]
  | c :: cs =>
      if c = '\n' then [] :: splitNl cs
      else
        match splitNl cs with
        | [] => [[c]]
        | seg :: segs => (c :: seg) :: segs

/-- An event the client's switch acts on.  The `content` / `payload`
fields carry the raw JSON the cast `as StreamEvent` would expose. -/
inductive ClientEvent where
  | token (content : Option Json) : ClientEvent
  | done (payload : Option Json) : ClientEvent
deriving Repr

/-- Dispatch on `event.type`: only the two declared tags produce an
event the switch acts on. -/
def clientEventOf (j : Json) : Option ClientEvent :=
  match j with
  | .obj ms =>
      match jlookup ms ("type") with
      | some (.str t) =>
          if t = "token" then some (.token (jlookup ms ("content")))
          else if t = "done" then some (.done (jlookup ms ("payload")))
          else none
      | _ => none
  | _ => none

/-- The client's `tryParseStreamEvent` combined with its switch: blank
and malformed lines yield nothing, as do parsed values the switch has no
case for. -/
def tryParseStreamEvent (line : List Char) : Option ClientEvent :=
  let t := jsTrimL line
  if t = [] then none
  else
    match jsonParse (String.mk t) with
    | none => none
    | some j => clientEventOf j

/-- One `reader.read()` iteration: append the decoded chunk to the
buffer, split on newlines, retain the final (possibly incomplete) segment
as the new buffer, and process every complete line in order. -/
def consumeStep (st : List Char × List ClientEvent) (chunk : List Char) :
    List Char × List ClientEvent :=
  let buf := st.1 ++ chunk
  let segs := splitNl buf
  (segs.getLastD [], st.2 ++ segs.dropLast.filterMap tryParseStreamEvent)

/-- The whole `consumeStream` loop over the decoded chunks, returning the
final unconsumed buffer and the ordered processed events. -/
def consumeStream (chunks : List (List Char)) : List Char × List ClientEvent :=
  chunks.foldl consumeStep ([], [])

/-! ## The context builder (`src/features/ai-copilot/context-builder.ts`) -/

/-- A dashboard table row: an open record. -/
abbrev TableRow := List (String × Json)

/-- Maximum number of table rows included in the context payload. -/
def MAX_TABLE_ROWS : Nat := 20

/-- Field names that must never be sent to the AI backend.
Case-sensitive, matched against top-level keys of each table row. -/
def SENSITIVE_FIELDS : List String :=
  ["email", "password", "token", "secret", "apiKey", "ssn", "creditCard"]

/-- Strip sensitive fields from a single record: iterate the keys in
order and copy over every entry whose key is not denylisted. -/
def stripSensitiveFields (row : TableRow) : TableRow :=
  row.foldl
    (fun cleaned kv =>
      if SENSITIVE_FIELDS.contains kv.1 then cleaned else cleaned ++ [kv])
    []

/-- Sanitise and truncate a table snapshot: cap at `MAX_TABLE_ROWS` rows
(reporting whether the cap bit), then strip sensitive fields from every
retained row. -/
def sanitizeTableSnapshot (rows : List TableRow) : List TableRow × Bool :=
  let truncated := decide (rows.length > MAX_TABLE_ROWS)
  let sliced := if rows.length > MAX_TABLE_ROWS then rows.take MAX_TABLE_ROWS else rows
  (sliced.map stripSensitiveFields, truncated)

structure CopilotContextParams where
  currentPage : String
  metricsSummary : Option (List (String × Json))
  tableSnapshot : Option (List TableRow)

structure CopilotContext where
  currentPage : String
  visibleMetrics : Option (List (String × Json))
  tableSnapshot : Option (List TableRow)
  tableSnapshotTruncated : Bool
deriving Repr

/-- `buildCopilotContext`: sanitize a nonempty snapshot, pass the page
and metrics through, and default the snapshot to `null` (`none`) and the
flag to `false` when no rows were given. -/
def buildCopilotContext (params : CopilotContextParams) : CopilotContext :=
  let table : Option (List TableRow × Bool) :=
    match params.tableSnapshot with
    | some rows =>
        if rows.length > 0 then some (sanitizeTableSnapshot rows) else none
    | none => none
  { currentPage := params.currentPage
    visibleMetrics := params.metricsSummary
    tableSnapshot := table.map Prod.fst
    tableSnapshotTruncated := (table.map Prod.snd).getD false }

/-! ## The action dispatcher (`src/features/ai-copilot/action-dispatcher.ts`)

Host callbacks are modelled as effects: a dispatch returns its result
record together with the ordered list of control invocations it
performed.  `setStatusFilter` is always supplied by the host;
`highlightMetric` is optional, and when it is absent the source falls
back to the metrics store's `setHighlightedMetric` (a distinct effect
below, so the two mechanisms stay observable). -/

inductive HostEffect where
  | setStatusFilter (value : String) : HostEffect
  | hostHighlightMetric (key : String) : HostEffect
  | storeSetHighlightedMetric (key : String) : HostEffect
deriving Repr, DecidableEq

/-- The dispatcher's input action.  `actionType` is a runtime string: the
TypeScript union is closed, but the default branch exists precisely for
out-of-vocabulary values reaching it at runtime. -/
structure CopilotAction where
  actionType : String
  payload : List (String × Json)

/-- Whether the host page supplied a `highlightMetric` callback. -/
structure MetricControls where
  highlightMetricSupplied : Bool

structure DispatchResult where
  success : Bool
  actionType : String
  error : Option String
deriving Repr, DecidableEq

/-- Extract a string payload field (`undefined` if absent or not a
string). -/
def extractString (payload : List (String × Json)) (key : String) : Option String :=
  match jlookup payload key with
  | some (.str s) => some s
  | _ => none

def handleApplyFilter (payload : List (String × Json)) :
    DispatchResult × List HostEffect :=
  match extractString payload ("filterValue") with
  | none =>
      ({ success := false, actionType := "APPLY_FILTER",
         error := some ("APPLY_FILTER requires a \"filterValue\" string in the action payload.") },
       [])
  | some v =>
      ({ success := true, actionType := "APPLY_FILTER", error := none },
       [HostEffect.setStatusFilter v])

/-- `EXPORT_REPORT` always succeeds; its only side effect in the source
is a console log, which invokes no host control. -/
def handleExportReport : DispatchResult × List HostEffect :=
  ({ success := true, actionType := "EXPORT_REPORT", error := none }, [])

def handleHighlightMetric (payload : List (String × Json)) (mc : MetricControls) :
    DispatchResult × List HostEffect :=
  match extractString payload ("metricKey") with
  | none =>
      ({ success := false, actionType := "HIGHLIGHT_METRIC",
         error := some ("HIGHLIGHT_METRIC requires a \"metricKey\" string in the action payload.") },
       [])
  | some raw =>
      let metricKey := jsTrimL raw.data
      if metricKey.length = 0 then
        ({ success := false, actionType := "HIGHLIGHT_METRIC",
           error := some ("HIGHLIGHT_METRIC \"metricKey\" must be a non-empty string.") },
         [])
      else if mc.highlightMetricSupplied then
        ({ success := true, actionType := "HIGHLIGHT_METRIC", error := none },
         [HostEffect.hostHighlightMetric (String.mk metricKey)])
      else
        ({ success := true, actionType := "HIGHLIGHT_METRIC", error := none },
         [HostEffect.storeSetHighlightedMetric (String.mk metricKey)])

/-- `dispatchCopilotAction`: route on the action type, with the default
branch returning an explicit failure for any value outside the closed
vocabulary.  Total, hence "never throws; always returns a result". -/
def dispatchCopilotAction (action : CopilotAction) (mc : MetricControls) :
    DispatchResult × List HostEffect :=
  if action.actionType = "APPLY_FILTER" then handleApplyFilter action.payload
  else if action.actionType = "EXPORT_REPORT" then handleExportReport
  else if action.actionType = "HIGHLIGHT_METRIC" then
    handleHighlightMetric action.payload mc
  else
    ({ success := false, actionType := action.actionType,
       error := some ("Unknown action type: " ++ action.actionType) },
     [])

/-! ## Auxiliary predicates for the round-trip theorems -/

/-- Whether a rendered number cannot be extended by the following input:
the next character (if any) is no digit and none of `.`, `e`, `E`.  Every
position at which `JSON.stringify` output continues after a number — a
comma, a closing bracket or brace, or the end — satisfies this. -/
def numBoundary : List Char → Bool
  | [] => true
  | c :: _ => !(isDig c || c = '.' || c = 'e' || c = 'E')

mutual

/-- Every number in the tree has a finite decimal expansion.  True of
every tree a JavaScript value produces, since IEEE doubles are binary
fractions. -/
def jsonNumsOK : Json → Bool
  | .null => true
  | .bool _ => true
  | .num q => isDecRep q
  | .str _ => true
  | .arr es => itemsNumsOK es
  | .obj ms => membersNumsOK ms

def itemsNumsOK : List Json → Bool
  | [] => true
  | e :: es => jsonNumsOK e && itemsNumsOK es

def membersNumsOK : List (String × Json) → Bool
  | [] => true
  | (_, v) :: ms => jsonNumsOK v && membersNumsOK ms

end

/-- A model response wrapped in a single outer markdown fence, with or
without the `json` language tag — the input shape of claim C4. -/
def fenceWrap (useTag : Bool) (body : String) : String :=
  String.mk
    (fenceChars ++ (if useTag then jsonTagChars else []) ++
      '\n' :: body.data ++ '\n' :: fenceChars)

/-- The Unicode LINE SEPARATOR (U+2028): an ECMAScript line terminator
that `JSON.stringify` leaves unescaped inside string literals. -/
def lineSep : Char := Char.ofNat 0x2028

/-- A schema-conforming response whose summary holds a backquote fence
followed by a raw U+2028.  Serialized, the multiline `$` of the fence
regexp matches right before that U+2028, so the lazy fence close fires
inside the JSON text. -/
def C4_BAD : CopilotResponse :=
  { summary := String.mk ('a' :: backquote :: backquote :: backquote :: [lineSep])
    insights := []
    suggestedActions := []
    warnings := []
    confidenceScore := 0 }

/-! ## Helper lemmas -/

/-- The sanitizer's fold is a filter on top-level keys. -/
theorem stripSensitiveFields_eq_filter (row : TableRow) :
    stripSensitiveFields row
      = row.filter (fun kv => !(SENSITIVE_FIELDS.contains kv.1)) := by
  have aux : ∀ (l : TableRow) (acc : TableRow),
      l.foldl
        (fun cleaned kv =>
          if SENSITIVE_FIELDS.contains kv.1 then cleaned else cleaned ++ [kv]) acc
        = acc ++ l.filter (fun kv => !(SENSITIVE_FIELDS.contains kv.1)) := by
    intro l
    induction l with
    | nil => intro acc; simp
    | cons kv t ih =>
        intro acc
        cases h : SENSITIVE_FIELDS.contains kv.1 <;>
          simp only [List.foldl_cons, List.filter_cons, h, Bool.not_false,
            Bool.not_true, if_true, if_false, ite_true, ite_false, ih] <;>
          simp [List.append_assoc]
  simpa [stripSensitiveFields] using aux row []

/-! ## The claims -/

/-- Claim C1: every run of the streaming route's framer emits zero or more
`token` events — one per nonempty incremental content delta, in provider
order — followed by exactly one terminal `done` event, and then the stream
closes; when no token content accumulated before close, or when a
provider-side error interrupts iteration, that single `done` carries the
constant fallback response.  The consumer can never observe a close
without a terminal `done`, since the event list always ends with one. -/
theorem claim_C1_framer_terminal_done (chunks : List (Option String)) (errored : Bool) :
    ∃ payload,
      frameStream chunks errored
        = (deltaTokens chunks).map StreamEvent.token ++ [StreamEvent.done payload] ∧
      ((errored = true ∨ accumContent chunks = "") → payload = FALLBACK_RESPONSE) := by
  cases errored with
  | true => exact ⟨FALLBACK_RESPONSE, by simp [frameStream], fun _ => rfl⟩
  | false =>
      refine ⟨streamFinal (accumContent chunks), by simp [frameStream], ?_⟩
      rintro (h | h)
      · exact absurd h (by simp)
      · simp [streamFinal, h]

/-- Claim C5: the context builder keeps exactly the first 20 rows and sets
the truncation flag when more than 20 rows are given (35 rows yield 20 and
`true`); at most 20 nonzero rows pass through untruncated with the flag
`false`; every retained row is the input row with exactly the denylisted
keys removed; and `currentPage` and the aggregated metrics pass through
unchanged.  The function is total by construction. -/
theorem claim_C5_buildCopilotContext (params : CopilotContextParams) :
    (buildCopilotContext params).currentPage = params.currentPage ∧
    (buildCopilotContext params).visibleMetrics = params.metricsSummary ∧
    (∀ rows, params.tableSnapshot = some rows → MAX_TABLE_ROWS < rows.length →
      (buildCopilotContext params).tableSnapshot
          = some ((rows.take MAX_TABLE_ROWS).map stripSensitiveFields) ∧
      (buildCopilotContext params).tableSnapshotTruncated = true) ∧
    (∀ rows, params.tableSnapshot = some rows → 0 < rows.length →
        rows.length ≤ MAX_TABLE_ROWS →
      (buildCopilotContext params).tableSnapshot = some (rows.map stripSensitiveFields) ∧
      (buildCopilotContext params).tableSnapshotTruncated = false) ∧
    (∀ row, stripSensitiveFields row
        = row.filter (fun kv => !(SENSITIVE_FIELDS.contains kv.1))) := by
  refine ⟨?_, ?_, ?_, ?_, stripSensitiveFields_eq_filter⟩
  · cases h : params.tableSnapshot <;> simp [buildCopilotContext, h]
  · cases h : params.tableSnapshot <;> simp [buildCopilotContext, h]
  · intro rows hrows hlen
    have hpos : 0 < rows.length := by
      have : (20 : Nat) < rows.length := hlen
      omega
    constructor <;>
      simp [buildCopilotContext, hrows, hpos, sanitizeTableSnapshot, hlen]
  · intro rows hrows hpos hlen
    have hnot : ¬ (MAX_TABLE_ROWS < rows.length) := by
      have : rows.length ≤ (20 : Nat) := hlen
      omega
    constructor <;>
      simp [buildCopilotContext, hrows, hpos, sanitizeTableSnapshot, hnot]

/-- Claim C10 (implicit): sensitive-field removal matches only exact,
case-sensitive, top-level keys against the fixed seven-element denylist:
stripping is a filter on top-level keys; any key whose spelling is not
litterally in the denylist (for example `"Email"`) is retained unchanged,
and a sensitive key nested inside a sub-object value is never touched. -/
theorem claim_C10_sensitive_fields_exact :
    (∀ row, stripSensitiveFields row
        = row.filter (fun kv => !(SENSITIVE_FIELDS.contains kv.1))) ∧
    (∀ (k : String) (v : Json) (row : TableRow),
        SENSITIVE_FIELDS.contains k = false →
        stripSensitiveFields ((k, v) :: row) = (k, v) :: stripSensitiveFields row) ∧
    stripSensitiveFields [("Email", Json.str "kept")]
      = [("Email", Json.str "kept")] ∧
    (∀ ms : List (String × Json),
        stripSensitiveFields [("profile", Json.obj ms)]
          = [("profile", Json.obj ms)]) := by
  refine ⟨stripSensitiveFields_eq_filter, ?_, ?_, ?_⟩
  · intro k v row hk
    have hk' : k ∉ SENSITIVE_FIELDS := by simpa using hk
    simp [stripSensitiveFields_eq_filter, List.filter_cons, hk']
  · rfl
  · intro ms
    simp [stripSensitiveFields_eq_filter, List.filter_cons]
    decide

/-- Claim C6: the dispatcher is total (never throws, always returns a
result record), and every action that fails its per-action validation — an
`APPLY_FILTER` without a string `filterValue`, a `HIGHLIGHT_METRIC`
without a non-empty post-trim string `metricKey`, or any action type
outside the three declared values — yields `success := false` with the
matching `actionType` and a non-empty error, and invokes no host control
function (the effect list is empty). -/
theorem claim_C6_dispatch_validation (action : CopilotAction) (mc : MetricControls) :
    (action.actionType = "APPLY_FILTER" →
      extractString action.payload ("filterValue") = none →
      ∃ msg, dispatchCopilotAction action mc
          = ({ success := false, actionType := "APPLY_FILTER", error := some msg }, [])
        ∧ msg ≠ "") ∧
    (action.actionType = "HIGHLIGHT_METRIC" →
      (extractString action.payload ("metricKey") = none ∨
        (∃ s, extractString action.payload ("metricKey") = some s ∧ jsTrimL s.data = [])) →
      ∃ msg, dispatchCopilotAction action mc
          = ({ success := false, actionType := "HIGHLIGHT_METRIC", error := some msg }, [])
        ∧ msg ≠ "") ∧
    (action.actionType ≠ "APPLY_FILTER" → action.actionType ≠ "EXPORT_REPORT" →
      action.actionType ≠ "HIGHLIGHT_METRIC" →
      ∃ msg, dispatchCopilotAction action mc
          = ({ success := false, actionType := action.actionType, error := some msg }, [])
        ∧ msg ≠ "") := by
  refine ⟨?_, ?_, ?_⟩
  · intro ht hex
    refine ⟨"APPLY_FILTER requires a \"filterValue\" string in the action payload.",
      ?_, by simp⟩
    simp [dispatchCopilotAction, ht, handleApplyFilter, hex]
  · intro ht hfail
    rcases hfail with hnone | ⟨s, hs, htrim⟩
    · refine ⟨"HIGHLIGHT_METRIC requires a \"metricKey\" string in the action payload.",
        ?_, by simp⟩
      simp [dispatchCopilotAction, ht, handleHighlightMetric, hnone]
    · refine ⟨"HIGHLIGHT_METRIC \"metricKey\" must be a non-empty string.",
        ?_, by simp⟩
      simp [dispatchCopilotAction, ht, handleHighlightMetric, hs, htrim]
  · intro h1 h2 h3
    refine ⟨"Unknown action type: " ++ action.actionType, ?_, ?_⟩
    · simp [dispatchCopilotAction, h1, h2, h3]
    · intro hcontra
      have h0 := congrArg String.length hcontra
      simp [String.length_append] at h0
      exact absurd h0.1 (by decide)

/-- Claim C7, counterexample: a `HIGHLIGHT_METRIC` action with the valid
payload key `"revenue"`, dispatched with no host `highlightMetric`
control, does not fail with a control-unavailable error — the dispatcher
returns `success := true` and performs the highlight through the metrics
store (`setHighlightedMetric`), refuting the claim at this input. -/
theorem claim_C7_highlight_counterexample :
    dispatchCopilotAction
        { actionType := "HIGHLIGHT_METRIC",
          payload := [("metricKey", Json.str "revenue")] }
        { highlightMetricSupplied := false }
      = ({ success := true, actionType := "HIGHLIGHT_METRIC", error := none },
         [HostEffect.storeSetHighlightedMetric "revenue"]) := by
  rfl

/-- Claim C7 as amended: for every `HIGHLIGHT_METRIC` action whose payload
carries a non-empty (post-trim) string `metricKey`, dispatched with
controls where the host supplied no `highlightMetric` function, the
dispatcher falls back to the metrics store's `setHighlightedMetric`,
invokes it with the trimmed key, and returns `success := true` — it does
not fail with a control-unavailable error. -/
theorem claim_C7_highlight_store_fallback (payload : List (String × Json)) (s : String)
    (h : extractString payload ("metricKey") = some s)
    (h2 : jsTrimL s.data ≠ []) :
    dispatchCopilotAction { actionType := "HIGHLIGHT_METRIC", payload := payload }
        { highlightMetricSupplied := false }
      = ({ success := true, actionType := "HIGHLIGHT_METRIC", error := none },
         [HostEffect.storeSetHighlightedMetric (String.mk (jsTrimL s.data))]) := by
  have hlen : (jsTrimL s.data).length ≠ 0 := by
    simpa [List.length_eq_zero] using h2
  simp [dispatchCopilotAction, handleHighlightMetric, h, hlen]

/-- Concrete instance of the amended claim C7: a padded `" revenue "` key
trims to `"revenue"` and is highlighted through the store. -/
theorem claim_C7_highlight_store_fallback_witness :
    dispatchCopilotAction
        { actionType := "HIGHLIGHT_METRIC",
          payload := [("metricKey", Json.str " revenue ")] }
        { highlightMetricSupplied := false }
      = ({ success := true, actionType := "HIGHLIGHT_METRIC", error := none },
         [HostEffect.storeSetHighlightedMetric
            (String.mk (jsTrimL (" revenue " : String).data))]) :=
  claim_C7_highlight_store_fallback [("metricKey", Json.str " revenue ")] " revenue "
    (by rfl) (by decide)

/-- Claim C8: a request that arrives with the provider credential or the
model identifier missing (or empty) is answered with the safe fallback
response and status 503 before any model traffic; with the configuration
present, an unparseable body or a body failing the
`{query: non-empty string, context: map}` schema is answered with a 400
error envelope, again before any model call; and conversely the handler
only ever reaches the provider call with full configuration and a
validated body. -/
theorem claim_C8_request_gate (env : RouteEnv) (bodyText : String) :
    ((envFalsy env.OPENAI_API_KEY = true ∨ envFalsy env.LLM_MODEL = true) →
      handlePost env bodyText
        = PostStep.respond 503 (EarlyBody.copilotJson FALLBACK_RESPONSE)) ∧
    (envFalsy env.OPENAI_API_KEY = false → envFalsy env.LLM_MODEL = false →
      (jsonParse bodyText = none →
        handlePost env bodyText
          = PostStep.respond 400
              (EarlyBody.errorEnvelope ("Request body must be valid JSON"))) ∧
      (∀ j, jsonParse bodyText = some j → requestBodySafeParse j = none →
        handlePost env bodyText
          = PostStep.respond 400 (EarlyBody.errorEnvelope ("Invalid request body")))) ∧
    (∀ q ctx, handlePost env bodyText = PostStep.callModel q ctx →
      envFalsy env.OPENAI_API_KEY = false ∧ envFalsy env.LLM_MODEL = false ∧
      ∃ j, jsonParse bodyText = some j ∧ requestBodySafeParse j = some (q, ctx)) := by
  refine ⟨?_, ?_, ?_⟩
  · rintro (h | h)
    · simp [handlePost, h]
    · cases hk : envFalsy env.OPENAI_API_KEY with
      | true => simp [handlePost, hk]
      | false => simp [handlePost, hk, h]
  · intro hk hm
    constructor
    · intro hp
      simp [handlePost, hk, hm, hp]
    · intro j hp hb
      simp [handlePost, hk, hm, hp, hb]
  · intro q ctx h
    cases hk : envFalsy env.OPENAI_API_KEY with
    | true => simp [handlePost, hk] at h
    | false =>
        cases hm : envFalsy env.LLM_MODEL with
        | true => simp [handlePost, hk, hm] at h
        | false =>
            refine ⟨rfl, rfl, ?_⟩
            cases hp : jsonParse bodyText with
            | none => simp [handlePost, hk, hm, hp] at h
            | some j =>
                cases hb : requestBodySafeParse j with
                | none => simp [handlePost, hk, hm, hp, hb] at h
                | some qc =>
                    simp [handlePost, hk, hm, hp, hb] at h
                    refine ⟨j, rfl, ?_⟩
                    cases qc
                    simp_all

theorem splitNl_ne_nil (cs : List Char) : splitNl cs ≠ [] := by
  induction cs with
  | nil => simp [splitNl]
  | cons c cs ih =>
      by_cases h : c = '\n'
      · simp [splitNl, h]
      · cases hs : splitNl cs with
        | nil => exact absurd hs ih
        | cons seg segs => simp [splitNl, h, hs]

theorem splitNl_noNl (cs : List Char) (h : '\n' ∉ cs) : splitNl cs = [cs] := by
  induction cs with
  | nil => rfl
  | cons c cs ih =>
      have hc : ¬ (c = '\n') := fun hcc => h (hcc ▸ List.mem_cons_self c cs)
      have ht : '\n' ∉ cs := fun hm => h (List.mem_cons_of_mem c hm)
      simp [splitNl, hc, ih ht]

theorem splitNl_getLastD_noNl (cs : List Char) : '\n' ∉ (splitNl cs).getLastD [] := by
  induction cs with
  | nil => simp [splitNl]
  | cons c cs ih =>
      by_cases h : c = '\n'
      · have hne := splitNl_ne_nil cs
        cases hs : splitNl cs with
        | nil => exact absurd hs hne
        | cons seg segs =>
            simp only [splitNl, h, if_true, hs]
            simpa [List.getLastD_cons, hs] using ih
      · cases hs : splitNl cs with
        | nil => exact absurd hs (splitNl_ne_nil cs)
        | cons seg segs =>
            simp only [splitNl, h, if_false, hs, ite_false]
            cases segs with
            | nil =>
                simp only [List.getLastD_cons, List.getLastD_nil] at ih ⊢
                rw [hs] at ih
                simp only [List.getLastD_cons, List.getLastD_nil] at ih
                intro hm
                rcases List.mem_cons.mp hm with h1 | h2
                · exact h h1.symm
                · exact ih h2
            | cons t ts =>
                rw [hs] at ih
                simpa [List.getLastD_cons] using ih

theorem splitNl_cons_nl (cs : List Char) : splitNl ('\n' :: cs) = [] :: splitNl cs := by
  simp [splitNl]

theorem splitNl_cons_other (c : Char) (h : ¬ c = '\n') (cs seg : List Char)
    (segs : List (List Char)) (hs : splitNl cs = seg :: segs) :
    splitNl (c :: cs) = (c :: seg) :: segs := by
  simp [splitNl, h, hs]

theorem splitNl_append (a : List Char) :
    ∀ (b : List Char) (x : List Char) (xs : List (List Char)),
      splitNl b = x :: xs →
      splitNl (a ++ b)
        = (splitNl a).dropLast ++ (((splitNl a).getLastD []) ++ x) :: xs := by
  induction a with
  | nil => intro b x xs hb; simpa [splitNl] using hb
  | cons c a ih =>
      intro b x xs hb
      cases hs : splitNl a with
      | nil => exact absurd hs (splitNl_ne_nil a)
      | cons s segs =>
          have hrec := ih b x xs hb
          rw [hs] at hrec
          by_cases h : c = '\n'
          · subst h
            rw [List.cons_append, splitNl_cons_nl, splitNl_cons_nl, hrec, hs]
            cases segs with
            | nil => simp [List.getLastD_cons]
            | cons t ts =>
                cases hx : (t :: ts).getLast? with
                | none => simp at hx
                | some y => simp [List.getLastD_cons, List.dropLast_cons₂, hx]
          · cases segs with
            | nil =>
                simp only [List.dropLast_single, List.nil_append,
                  List.getLastD_cons, List.getLastD_nil] at hrec
                rw [List.cons_append,
                  splitNl_cons_other c h (a ++ b) (s ++ x) xs hrec,
                  splitNl_cons_other c h a s [] hs]
                simp [List.getLastD_cons]
            | cons t ts =>
                have hd : (s :: t :: ts).dropLast = s :: (t :: ts).dropLast := by
                  simp [List.dropLast_cons₂]
                rw [hd, List.cons_append] at hrec
                rw [List.cons_append,
                  splitNl_cons_other c h (a ++ b) _ _ hrec,
                  splitNl_cons_other c h a s (t :: ts) hs]
                cases hx : (t :: ts).getLast? with
                | none => simp at hx
                | some y => simp [List.getLastD_cons, List.dropLast_cons₂, hx]

theorem splitNl_append_tail (a b : List Char) :
    splitNl (a ++ b)
      = (splitNl a).dropLast ++ splitNl ((splitNl a).getLastD [] ++ b) := by
  cases hb : splitNl b with
  | nil => exact absurd hb (splitNl_ne_nil b)
  | cons x xs =>
      rw [splitNl_append a b x xs hb]
      have htail : splitNl ((splitNl a).getLastD [] ++ b)
          = ((splitNl a).getLastD [] ++ x) :: xs := by
        have hnl := splitNl_getLastD_noNl a
        rw [splitNl_append ((splitNl a).getLastD []) b x xs hb,
          splitNl_noNl _ hnl]
        simp
      rw [htail]

theorem consumeStream_fold_spec (chunks : List (List Char)) :
    ∀ (buf : List Char) (evts : List ClientEvent), '\n' ∉ buf →
      chunks.foldl consumeStep (buf, evts)
        = ((splitNl (buf ++ chunks.flatten)).getLastD [],
           evts ++ ((splitNl (buf ++ chunks.flatten)).dropLast).filterMap
             tryParseStreamEvent) := by
  induction chunks with
  | nil =>
      intro buf evts hbuf
      simp [splitNl_noNl buf hbuf]
  | cons c rest ih =>
      intro buf evts hbuf
      rw [List.foldl_cons]
      have hstep : consumeStep (buf, evts) c
          = ((splitNl (buf ++ c)).getLastD [],
             evts ++ ((splitNl (buf ++ c)).dropLast).filterMap tryParseStreamEvent) := rfl
      rw [hstep, ih _ _ (splitNl_getLastD_noNl (buf ++ c))]
      have hjoin : buf ++ (c :: rest).flatten = (buf ++ c) ++ rest.flatten := by
        simp [List.flatten]
      rw [hjoin, splitNl_append_tail (buf ++ c) rest.flatten]
      have hne := splitNl_ne_nil ((splitNl (buf ++ c)).getLastD [] ++ rest.flatten)
      have hA : ∀ (X Y : List (List Char)), Y ≠ [] →
          (X ++ Y).getLastD [] = Y.getLastD [] := by
        intro X Y hY
        cases hy : Y.getLast? with
        | none => simp at hy; exact absurd hy hY
        | some y => simp [List.getLastD_eq_getLast?, List.getLast?_append, hy]
      rw [hA _ _ hne, List.dropLast_append_of_ne_nil _ hne, List.filterMap_append,
        List.append_assoc]

theorem consumeStream_spec (chunks : List (List Char)) :
    consumeStream chunks
      = ((splitNl chunks.flatten).getLastD [],
         ((splitNl chunks.flatten).dropLast).filterMap tryParseStreamEvent) := by
  have h := consumeStream_fold_spec chunks [] [] (by simp)
  simpa [consumeStream] using h

/-- Claim C9: feeding the client stream consumer one total decoded
character sequence under two different chunkings produces the identical
ordered event sequence (framing is chunk-boundary-independent), and in
either case the events are exactly those parsed from the newline-terminated
lines of the total sequence, with the final (possibly incomplete) segment
retained as the unconsumed buffer and never parsed.  Splits that fall
inside a multi-byte UTF-8 character are resolved by the streaming text
decoder before this loop, so character-level chunkings cover all byte-level
split points. -/
theorem claim_C9_chunk_boundary_independence (cs1 cs2 : List (List Char))
    (h : cs1.flatten = cs2.flatten) :
    consumeStream cs1 = consumeStream cs2 ∧
    (consumeStream cs1).1 = (splitNl cs1.flatten).getLastD [] ∧
    (consumeStream cs1).2
      = ((splitNl cs1.flatten).dropLast).filterMap tryParseStreamEvent := by
  rw [consumeStream_spec cs1, consumeStream_spec cs2, h]
  exact ⟨rfl, rfl, rfl⟩

/-- Concrete instance of claim C9: the chunkings `["a", "\nb"]` and
`["a\nb"]` of the same byte sequence produce identical results. -/
theorem claim_C9_chunk_boundary_witness :
    consumeStream [['a'], ['\n', 'b']] = consumeStream [['a', '\n', 'b']] ∧
    (consumeStream [['a'], ['\n', 'b']]).1
      = (splitNl ([['a'], ['\n', 'b']] : List (List Char)).flatten).getLastD [] ∧
    (consumeStream [['a'], ['\n', 'b']]).2
      = ((splitNl ([['a'], ['\n', 'b']] : List (List Char)).flatten).dropLast).filterMap
          tryParseStreamEvent :=
  claim_C9_chunk_boundary_independence [['a'], ['\n', 'b']] [['a', '\n', 'b']] (by rfl)


theorem toNat_charOfNat_small (m : Nat) (h : m < 55296) : (Char.ofNat m).toNat = m := by
  have hv : m.isValidChar := Or.inl (by omega)
  simp [Char.ofNat, hv, Char.toNat, Char.ofNatAux, UInt32.toNat, UInt32.ofNat']

theorem isDig_digitChar (k : Nat) (h : k < 10) : isDig (Char.ofNat (48 + k)) = true := by
  interval_cases k <;> decide

theorem digOf_digitChar (k : Nat) (h : k < 10) : digOf (Char.ofNat (48 + k)) = k := by
  rw [digOf, toNat_charOfNat_small (48 + k) (by omega)]
  omega

theorem natChars_eq (f1 : Nat) :
    ∀ (f2 n : Nat), n < f1 → n < f2 → natChars f1 n = natChars f2 n := by
  induction f1 with
  | zero => intro f2 n h1 _; omega
  | succ g ih =>
      intro f2 n h1 h2
      cases f2 with
      | zero => omega
      | succ h =>
          by_cases hn : n < 10
          · simp [natChars, hn]
          · have hd : n / 10 < g := by omega
            have hd2 : n / 10 < h := by omega
            simp only [natChars, hn, if_false, ite_false]
            rw [ih h (n / 10) hd hd2]

theorem digitsOf_unfold (n : Nat) :
    digitsOf n
      = (if n < 10 then [] else digitsOf (n / 10)) ++ [Char.ofNat (48 + n % 10)] := by
  by_cases hn : n < 10
  · simp [digitsOf, natChars, hn, Nat.mod_eq_of_lt hn]
  · simp only [digitsOf, natChars, hn, if_false, ite_false, if_neg hn]
    rw [natChars_eq n (n / 10 + 1) (n / 10) (by omega) (by omega)]
    by_cases h2 : n / 10 < 10
    · simp [natChars, h2, Nat.mod_eq_of_lt h2]
    · simp [natChars, h2]

theorem digitsOf_digits (n : Nat) : ∀ c ∈ digitsOf n, isDig c = true := by
  induction n using Nat.strong_induction_on with
  | _ n ih =>
      rw [digitsOf_unfold]
      intro c hc
      rcases List.mem_append.mp hc with h1 | h2
      · by_cases hn : n < 10
        · simp [hn] at h1
        · exact ih (n / 10) (by omega) c (by simpa [hn] using h1)
      · rw [List.mem_singleton] at h2
        subst h2
        exact isDig_digitChar (n % 10) (Nat.mod_lt n (by omega))

theorem digitsOf_ne_nil (n : Nat) : digitsOf n ≠ [] := by
  rw [digitsOf_unfold]; simp

theorem digitsVal_append_digit (ds : List Char) (c : Char) :
    digitsVal (ds ++ [c]) = 10 * digitsVal ds + digOf c := by
  simp [digitsVal, List.foldl_append]

theorem digitsVal_digitsOf (n : Nat) : digitsVal (digitsOf n) = n := by
  induction n using Nat.strong_induction_on with
  | _ n ih =>
      rw [digitsOf_unfold]
      by_cases hn : n < 10
      · rw [if_pos hn, List.nil_append]
        have h1 : digitsVal [Char.ofNat (48 + n % 10)] = n % 10 := by
          simp [digitsVal, digOf_digitChar (n % 10) (Nat.mod_lt n (by omega))]
        rw [h1, Nat.mod_eq_of_lt hn]
      · rw [if_neg hn, digitsVal_append_digit, ih (n / 10) (by omega),
          digOf_digitChar (n % 10) (Nat.mod_lt n (by omega))]
        omega

theorem digitsOf_head_pos (n : Nat) (h : 1 ≤ n) :
    ∃ c t, digitsOf n = c :: t ∧ isDig c = true ∧ c ≠ '0' := by
  induction n using Nat.strong_induction_on with
  | _ n ih =>
      rw [digitsOf_unfold]
      by_cases hn : n < 10
      · refine ⟨Char.ofNat (48 + n % 10), [], by simp [hn], isDig_digitChar _ (Nat.mod_lt n (by omega)), ?_⟩
        intro hc
        have := congrArg Char.toNat hc
        rw [toNat_charOfNat_small _ (by omega)] at this
        have hz : ('0' : Char).toNat = 48 := by decide
        rw [hz] at this
        omega
      · obtain ⟨c, t, hct, hd, hz⟩ := ih (n / 10) (by omega) (by omega)
        exact ⟨c, t ++ [Char.ofNat (48 + n % 10)], by simp [hn, hct], hd, hz⟩

theorem digitsOf_length_le (k : Nat) :
    ∀ n, n < 10 ^ k → 1 ≤ k → (digitsOf n).length ≤ k := by
  induction k with
  | zero => intro n _ h; omega
  | succ j ih =>
      intro n hn _
      rw [digitsOf_unfold]
      by_cases h10 : n < 10
      · rw [if_pos h10, List.nil_append, List.length_singleton]
        omega
      · rw [if_neg h10, List.length_append, List.length_singleton]
        have hj : 1 ≤ j := by
          by_contra hj0
          have hj' : j = 0 := by omega
          rw [hj'] at hn
          norm_num at hn
          omega
        have hd : n / 10 < 10 ^ j := by
          rw [Nat.div_lt_iff_lt_mul (by omega)]
          calc n < 10 ^ (j + 1) := hn
            _ = 10 ^ j * 10 := by ring
        have := ih (n / 10) hd hj
        omega

theorem digitsVal_zeros_prefix (j : Nat) (ds : List Char) :
    digitsVal (List.replicate j '0' ++ ds) = digitsVal ds := by
  induction j with
  | zero => simp
  | succ i ih =>
      have h0 : digOf '0' = 0 := by decide
      simp only [List.replicate_succ, List.cons_append, digitsVal, List.foldl_cons] at ih ⊢
      simpa [h0] using ih

theorem grabDigits_stop (cs : List Char) (h : ∀ c r, cs = c :: r → isDig c = false) :
    grabDigits cs = ([], cs) := by
  cases cs with
  | nil => rfl
  | cons c r => simp [grabDigits, h c r rfl]

theorem grabDigits_append (ds : List Char) (hds : ∀ c ∈ ds, isDig c = true)
    (rest : List Char) (hrest : grabDigits rest = ([], rest)) :
    grabDigits (ds ++ rest) = (ds, rest) := by
  induction ds with
  | nil => simpa using hrest
  | cons c t ih =>
      have hc : isDig c = true := hds c (by simp)
      have ht := ih (fun x hx => hds x (by simp [hx]))
      simp [grabDigits, hc, ht]

theorem isDig_ne (c : Char) (h : isDig c = true) :
    c ≠ '-' ∧ c ≠ '.' ∧ c ≠ 'e' ∧ c ≠ 'E' ∧ c ≠ '+' ∧ c ≠ '"' ∧ c ≠ '[' ∧ c ≠ '{' ∧
    c ≠ ']' ∧ c ≠ '}' ∧ c ≠ ',' ∧ c ≠ ':' ∧ c ≠ 'n' ∧ c ≠ 't' ∧ c ≠ 'f' := by
  refine ⟨?_, ?_, ?_, ?_, ?_, ?_, ?_, ?_, ?_, ?_, ?_, ?_, ?_, ?_, ?_⟩ <;>
    (intro hc; subst hc; exact absurd h (by decide))

theorem isDig_not_ws (c : Char) (h : isDig c = true) : isJsonWs c = false := by
  have h1 : c ≠ ' ' := fun hc => by subst hc; exact absurd h (by decide)
  have h2 : c ≠ '\t' := fun hc => by subst hc; exact absurd h (by decide)
  have h3 : c ≠ '\n' := fun hc => by subst hc; exact absurd h (by decide)
  have h4 : c ≠ '\r' := fun hc => by subst hc; exact absurd h (by decide)
  simp [isJsonWs, h1, h2, h3, h4]

theorem numBoundary_cases (rest : List Char) (h : numBoundary rest = true) :
    rest = [] ∨ ∃ d t, rest = d :: t ∧ isDig d = false ∧ d ≠ '.' ∧ d ≠ 'e' ∧ d ≠ 'E' := by
  cases rest with
  | nil => exact Or.inl rfl
  | cons d t =>
      simp only [numBoundary, Bool.not_eq_true', Bool.or_eq_false_iff,
        decide_eq_false_iff_not] at h
      exact Or.inr ⟨d, t, rfl, h.1.1.1, h.1.1.2, h.1.2, h.2⟩

theorem numBoundary_grabStop (rest : List Char) (h : numBoundary rest = true) :
    grabDigits rest = ([], rest) := by
  rcases numBoundary_cases rest h with rfl | ⟨d, t, rfl, hd, _, _, _⟩
  · rfl
  · simp [grabDigits, hd]

theorem parseIntPart_zero (rest : List Char)
    (h : ∀ c r, rest = c :: r → isDig c = false) :
    parseIntPart ('0' :: rest) = some (0, rest) := by
  cases rest with
  | nil => rfl
  | cons d t => simp [parseIntPart, h d t rfl]

theorem parseIntPart_pos (m : Nat) (hm : 1 ≤ m) (rest : List Char)
    (hrest : grabDigits rest = ([], rest)) :
    parseIntPart (digitsOf m ++ rest) = some (m, rest) := by
  obtain ⟨c, t, hct, hcd, hc0⟩ := digitsOf_head_pos m hm
  have hgrab : grabDigits (digitsOf m ++ rest) = (digitsOf m, rest) :=
    grabDigits_append (digitsOf m) (digitsOf_digits m) rest hrest
  rw [hct, List.cons_append] at hgrab ⊢
  simp only [parseIntPart, hc0, hcd, if_false, if_true, ite_false, ite_true, hgrab]
  rw [show (c :: t) = digitsOf m from hct.symm, digitsVal_digitsOf]

theorem parseFracPart_skip (r2 : List Char) (h : ∀ r3, r2 ≠ '.' :: r3) :
    parseFracPart r2 = some (0, 0, r2) := by
  cases r2 with
  | nil => rfl
  | cons d t =>
      have hd : ¬ (d = '.') := fun hc => h t (by rw [hc])
      simp [parseFracPart]

theorem parseFracPart_digits (fs : List Char) (hfs : fs ≠ [])
    (hds : ∀ c ∈ fs, isDig c = true) (rest : List Char)
    (hrest : grabDigits rest = ([], rest)) :
    parseFracPart ('.' :: (fs ++ rest)) = some (digitsVal fs, fs.length, rest) := by
  have hgrab := grabDigits_append fs hds rest hrest
  simp [parseFracPart, hgrab, hfs]

theorem parseExpPart_skip (r5 : List Char)
    (h : ∀ c r, r5 = c :: r → c ≠ 'e' ∧ c ≠ 'E') :
    parseExpPart r5 = some (0, r5) := by
  cases r5 with
  | nil => rfl
  | cons d t =>
      obtain ⟨h1, h2⟩ := h d t rfl
      simp [parseExpPart, h1, h2]

theorem parseJNumBody_int (m : Nat) (rest : List Char) (hrest : numBoundary rest = true) :
    parseJNumBody (digitsOf m ++ rest) = some ((m : ℚ), rest) := by
  have hstop := numBoundary_grabStop rest hrest
  have hnmatch : ∀ c r, rest = c :: r → isDig c = false := by
    intro c r hcr
    rcases numBoundary_cases rest hrest with h0 | ⟨d, t, hdt, hd, _, _, _⟩
    · rw [h0] at hcr; cases hcr
    · rw [hdt] at hcr
      injection hcr with e1 e2
      rw [e1] at hd
      exact hd
  have hdot : ∀ r3, rest ≠ '.' :: r3 := by
    intro r3 hc
    rcases numBoundary_cases rest hrest with h0 | ⟨d, t, hdt, _, hdd, _, _⟩
    · rw [h0] at hc; cases hc
    · rw [hdt] at hc
      injection hc with e1 _
      exact hdd e1
  have hexp : ∀ c r, rest = c :: r → c ≠ 'e' ∧ c ≠ 'E' := by
    intro c r hcr
    rcases numBoundary_cases rest hrest with h0 | ⟨d, t, hdt, _, _, hee, hEE⟩
    · rw [h0] at hcr; cases hcr
    · rw [hdt] at hcr
      injection hcr with e1 _
      subst e1
      exact ⟨hee, hEE⟩
  have hint : parseIntPart (digitsOf m ++ rest) = some (m, rest) := by
    rcases Nat.eq_zero_or_pos m with rfl | hm
    · have h0 : digitsOf 0 = ['0'] := by decide
      rw [h0, List.singleton_append]
      exact parseIntPart_zero rest hnmatch
    · exact parseIntPart_pos m hm rest hstop
  simp only [parseJNumBody, hint, parseFracPart_skip rest hdot,
    parseExpPart_skip rest hexp, Option.bind_eq_bind, Option.some_bind]
  norm_num

theorem replicate_digits (j : Nat) : ∀ c ∈ List.replicate j '0', isDig c = true := by
  intro c hc
  rw [List.eq_of_mem_replicate hc]
  decide

theorem parseJNumBody_frac (m k : Nat) (hk : 1 ≤ k) (rest : List Char)
    (hrest : numBoundary rest = true) :
    parseJNumBody
        (digitsOf (m / 10 ^ k) ++
          '.' :: (List.replicate (k - (digitsOf (m % 10 ^ k)).length) '0' ++
            digitsOf (m % 10 ^ k)) ++ rest)
      = some ((m : ℚ) / (10 : ℚ) ^ k, rest) := by
  have hstop := numBoundary_grabStop rest hrest
  set fs : List Char :=
    List.replicate (k - (digitsOf (m % 10 ^ k)).length) '0' ++ digitsOf (m % 10 ^ k)
    with hfs_def
  have hfs_digits : ∀ c ∈ fs, isDig c = true := by
    intro c hc
    rcases List.mem_append.mp hc with h1 | h2
    · exact replicate_digits _ c h1
    · exact digitsOf_digits _ c h2
  have hfs_ne : fs ≠ [] := by
    simp [hfs_def, digitsOf_ne_nil]
  have hfs_len : fs.length = k := by
    have hlt : m % 10 ^ k < 10 ^ k := Nat.mod_lt m (by positivity)
    have := digitsOf_length_le k (m % 10 ^ k) hlt hk
    simp only [hfs_def, List.length_append, List.length_replicate]
    omega
  have hfs_val : digitsVal fs = m % 10 ^ k := by
    rw [hfs_def, digitsVal_zeros_prefix, digitsVal_digitsOf]
  -- the int part stops at the dot
  have hdotstop : grabDigits ('.' :: (fs ++ rest)) = ([], '.' :: (fs ++ rest)) := by
    simp [grabDigits]
    decide
  have hint : parseIntPart (digitsOf (m / 10 ^ k) ++ '.' :: (fs ++ rest))
      = some (m / 10 ^ k, '.' :: (fs ++ rest)) := by
    rcases Nat.eq_zero_or_pos (m / 10 ^ k) with hz | hm
    · rw [hz]
      have h0 : digitsOf 0 = ['0'] := by decide
      rw [h0, List.singleton_append]
      exact parseIntPart_zero _ (by intro c r hcr; injection hcr with e1 _; rw [← e1]; decide)
    · exact parseIntPart_pos _ hm _ hdotstop
  have hfrac : parseFracPart ('.' :: (fs ++ rest)) = some (m % 10 ^ k, k, rest) := by
    rw [parseFracPart_digits fs hfs_ne hfs_digits rest hstop, hfs_val, hfs_len]
  have hexp : parseExpPart rest = some (0, rest) := by
    apply parseExpPart_skip
    intro c r hcr
    rcases numBoundary_cases rest hrest with h0 | ⟨d, t, hdt, _, _, hee, hEE⟩
    · rw [h0] at hcr; cases hcr
    · rw [hdt] at hcr; injection hcr with e1 _; subst e1; exact ⟨hee, hEE⟩
  have harr : digitsOf (m / 10 ^ k) ++ '.' :: (List.replicate (k - (digitsOf (m % 10 ^ k)).length) '0' ++ digitsOf (m % 10 ^ k)) ++ rest
      = digitsOf (m / 10 ^ k) ++ '.' :: (fs ++ rest) := by
    simp [hfs_def, List.append_assoc]
  rw [harr]
  simp only [parseJNumBody, hint, hfrac, hexp, Option.bind_eq_bind, Option.some_bind]
  congr 1
  congr 1
  rw [zpow_zero, mul_one]
  have hsplit : (10 : ℚ) ^ k ≠ 0 := by positivity
  field_simp
  have h2 : (10:ℚ) ^ k * ((m / 10 ^ k : Nat) : ℚ) + ((m % 10 ^ k : Nat) : ℚ) = (m : ℚ) := by
    exact_mod_cast congrArg (fun x : Nat => (x : ℚ)) (Nat.div_add_mod m (10 ^ k))
  linear_combination h2

theorem den_neg_eq (q : ℚ) : (-q).den = q.den := by
  exact Rat.neg_den q ▸ rfl

theorem decRep_dvd (q : ℚ) (h : isDecRep q = true) : q.den ∣ 10 ^ decPow q := by
  rw [isDecRep, decide_eq_true_eq] at h
  set a := padicCount 2 q.den q.den
  set b := padicCount 5 q.den q.den
  have h10 : (10 : Nat) ^ decPow q = 2 ^ decPow q * 5 ^ decPow q := by
    rw [← Nat.mul_pow]
  rw [h10, h]
  exact Nat.mul_dvd_mul (Nat.pow_dvd_pow 2 (le_max_left a b))
    (Nat.pow_dvd_pow 5 (le_max_right a b))

theorem rat_scaled_cast (q : ℚ) (k : Nat) (hq : 0 ≤ q) (hdvd : q.den ∣ 10 ^ k) :
    ((q * (10 : ℚ) ^ k).num.toNat : ℚ) = q * (10 : ℚ) ^ k := by
  obtain ⟨t, ht⟩ := hdvd
  have hden : (q.den : ℚ) ≠ 0 := by
    exact_mod_cast Rat.den_ne_zero q
  have h10 : ((10 : ℚ)) ^ k = (q.den : ℚ) * (t : ℚ) := by
    have := congrArg (fun x : Nat => (x : ℚ)) ht
    push_cast at this
    simpa using this
  have hqd : q * (q.den : ℚ) = (q.num : ℚ) := by
    have h := div_mul_cancel₀ (q.num : ℚ) hden
    rw [Rat.num_div_den q] at h
    exact h
  have hval : q * (10 : ℚ) ^ k = ((q.num * (t : ℤ) : ℤ) : ℚ) := by
    push_cast
    rw [h10, ← mul_assoc, hqd]
  have hnonneg : 0 ≤ (q * (10 : ℚ) ^ k) := by positivity
  have hnum_nonneg : 0 ≤ (q * (10 : ℚ) ^ k).num := Rat.num_nonneg.mpr hnonneg
  have htn : ((q * (10 : ℚ) ^ k).num.toNat : ℤ) = (q * (10 : ℚ) ^ k).num :=
    Int.toNat_of_nonneg hnum_nonneg
  calc ((q * (10 : ℚ) ^ k).num.toNat : ℚ)
      = (((q * (10 : ℚ) ^ k).num.toNat : ℤ) : ℚ) := by push_cast; ring
    _ = ((q * (10 : ℚ) ^ k).num : ℚ) := by rw [htn]
    _ = q * (10 : ℚ) ^ k := by
        rw [hval, Rat.num_intCast]

theorem renderQ_nonneg_body (q : ℚ) (hq : 0 ≤ q) :
    renderQ q
      = (if decPow q = 0 then digitsOf (q * (10 : ℚ) ^ decPow q).num.toNat
         else
           digitsOf ((q * (10 : ℚ) ^ decPow q).num.toNat / 10 ^ decPow q) ++
             '.' :: (List.replicate
                 (decPow q -
                   (digitsOf ((q * (10 : ℚ) ^ decPow q).num.toNat % 10 ^ decPow q)).length) '0' ++
               digitsOf ((q * (10 : ℚ) ^ decPow q).num.toNat % 10 ^ decPow q))) := by
  have habs : |q| = q := abs_of_nonneg hq
  have hneg : ¬ (q < 0) := not_lt.mpr hq
  rw [renderQ]
  simp only [habs, hneg, if_false, ite_false, List.nil_append]

theorem parseJNumBody_renderQ (q : ℚ) (hq : 0 ≤ q) (hdec : isDecRep q = true)
    (rest : List Char) (hrest : numBoundary rest = true) :
    parseJNumBody (renderQ q ++ rest) = some (q, rest) := by
  have hdvd := decRep_dvd q hdec
  have hcast := rat_scaled_cast q (decPow q) hq hdvd
  rw [renderQ_nonneg_body q hq]
  by_cases hk : decPow q = 0
  · rw [if_pos hk]
    rw [parseJNumBody_int _ rest hrest]
    congr 1
    congr 1
    rw [hcast, hk]
    norm_num
  · rw [if_neg hk]
    have hk1 : 1 ≤ decPow q := by omega
    rw [parseJNumBody_frac _ _ hk1 rest hrest]
    congr 1
    congr 1
    rw [hcast]
    field_simp

theorem renderQ_neg_cons (q : ℚ) (hq : q < 0) : renderQ q = '-' :: renderQ (-q) := by
  have habs : |q| = -q := abs_of_neg hq
  have habs2 : |(-q)| = -q := abs_of_pos (by linarith)
  have hneg2 : ¬ ((-q) < 0) := by linarith
  rw [renderQ, renderQ]
  simp only [habs, habs2, hq, if_true, ite_true, hneg2, if_false, ite_false,
    List.nil_append]
  by_cases hk : decPow (-q) = 0 <;> simp [hk]

theorem isDecRep_neg (q : ℚ) : isDecRep (-q) = isDecRep q := by
  rw [isDecRep, isDecRep, den_neg_eq]

theorem renderQ_head (q : ℚ) :
    ∃ c t, renderQ q = c :: t ∧ (c = '-' ∨ isDig c = true) := by
  by_cases hq : q < 0
  · exact ⟨'-', renderQ (-q), renderQ_neg_cons q hq, Or.inl rfl⟩
  · have h0 : 0 ≤ q := not_lt.mp hq
    rw [renderQ_nonneg_body q h0]
    by_cases hk : decPow q = 0
    · rw [if_pos hk]
      cases hd : digitsOf (q * (10 : ℚ) ^ decPow q).num.toNat with
      | nil => exact absurd hd (digitsOf_ne_nil _)
      | cons c t =>
          exact ⟨c, t, rfl, Or.inr (digitsOf_digits _ c (hd ▸ List.mem_cons_self c t))⟩
    · rw [if_neg hk]
      cases hd : digitsOf ((q * (10 : ℚ) ^ decPow q).num.toNat / 10 ^ decPow q) with
      | nil => exact absurd hd (digitsOf_ne_nil _)
      | cons c t =>
          refine ⟨c, t ++ '.' :: (List.replicate
              (decPow q -
                (digitsOf ((q * (10 : ℚ) ^ decPow q).num.toNat % 10 ^ decPow q)).length) '0' ++
              digitsOf ((q * (10 : ℚ) ^ decPow q).num.toNat % 10 ^ decPow q)), ?_, ?_⟩
          · simp
          · exact Or.inr (digitsOf_digits _ c (hd ▸ List.mem_cons_self c t))

theorem parseJNumber_renderQ (q : ℚ) (hdec : isDecRep q = true)
    (rest : List Char) (hrest : numBoundary rest = true) :
    parseJNumber (renderQ q ++ rest) = some (q, rest) := by
  by_cases hq : q < 0
  · rw [renderQ_neg_cons q hq, List.cons_append]
    show (parseJNumBody (renderQ (-q) ++ rest)).map (fun p => (-p.1, p.2)) = some (q, rest)
    rw [parseJNumBody_renderQ (-q) (by linarith) (by rw [isDecRep_neg]; exact hdec) rest hrest]
    simp
  · have h0 : 0 ≤ q := not_lt.mp hq
    obtain ⟨c, t, hct, hc⟩ := renderQ_head q
    have hcm : c ≠ '-' := by
      rcases hc with h1 | h2
      · -- c = '-' impossible for nonneg: renderQ q starts with a digit
        exfalso
        rw [renderQ_nonneg_body q h0] at hct
        by_cases hk : decPow q = 0
        · rw [if_pos hk] at hct
          have := digitsOf_digits ((q * (10 : ℚ) ^ decPow q).num.toNat) c
            (hct ▸ List.mem_cons_self c t)
          rw [h1] at this
          exact absurd this (by decide)
        · rw [if_neg hk] at hct
          cases hd : digitsOf ((q * (10 : ℚ) ^ decPow q).num.toNat / 10 ^ decPow q) with
          | nil => exact absurd hd (digitsOf_ne_nil _)
          | cons c2 t2 =>
              rw [hd, List.cons_append] at hct
              injection hct with e1 _
              have := digitsOf_digits ((q * (10 : ℚ) ^ decPow q).num.toNat / 10 ^ decPow q) c2
                (hd ▸ List.mem_cons_self c2 t2)
              rw [e1, h1] at this
              exact absurd this (by decide)
      · exact (isDig_ne c h2).1
    rw [hct, List.cons_append]
    have hstep : parseJNumber (c :: (t ++ rest)) = parseJNumBody (c :: (t ++ rest)) := by
      simp [parseJNumber, hcm]
    rw [hstep, ← List.cons_append, ← hct, parseJNumBody_renderQ q h0 hdec rest hrest]

theorem hexNibble_hexDigitChar (v : Nat) (h : v < 16) :
    hexNibble (hexDigitChar v) = some v := by
  interval_cases v <;> decide

theorem parseJStringBody_escape (c : Char) (fuel : Nat) (rest : List Char) :
    parseJStringBody (fuel + 1) (escapeChar c ++ rest)
      = (parseJStringBody fuel rest).map (fun p => (c :: p.1, p.2)) := by
  by_cases h1 : c = '"'
  · subst h1; rfl
  · by_cases h2 : c = '\\'
    · subst h2; rfl
    · by_cases h3 : c = '\n'
      · subst h3; rfl
      · by_cases h4 : c = '\r'
        · subst h4; rfl
        · by_cases h5 : c = '\t'
          · subst h5; rfl
          · by_cases h6 : c = Char.ofNat 8
            · subst h6; rfl
            · by_cases h7 : c = Char.ofNat 12
              · subst h7; rfl
              · by_cases h8 : c.toNat < 32
                · have hesc : escapeChar c
                      = ['\\', 'u', '0', '0', hexDigitChar (c.toNat / 16),
                         hexDigitChar (c.toNat % 16)] := by
                    simp [escapeChar, h1, h2, h3, h4, h5, h6, h7, h8]
                  rw [hesc]
                  have hq : hexQuad '0' '0' (hexDigitChar (c.toNat / 16))
                      (hexDigitChar (c.toNat % 16)) = some c.toNat := by
                    have hh1 : c.toNat / 16 < 16 := by omega
                    have hh2 : c.toNat % 16 < 16 := by omega
                    have h00 : hexNibble '0' = some 0 := by decide
                    simp [hexQuad, h00, hexNibble_hexDigitChar _ hh1,
                      hexNibble_hexDigitChar _ hh2]
                    omega
                  have hc1 : (0xD800 ≤ c.toNat && c.toNat < 0xDC00) = false := by
                    simp; omega
                  have hc2 : (0xDC00 ≤ c.toNat && c.toNat < 0xE000) = false := by
                    simp; omega
                  simp [parseJStringBody, hq, hc1, hc2, Char.ofNat_toNat]
                · have hesc : escapeChar c = [c] := by
                    simp [escapeChar, h1, h2, h3, h4, h5, h6, h7, h8]
                  rw [hesc]
                  simp [parseJStringBody, h1, h2, h8]

theorem parseJStringBody_escList (s : List Char) :
    ∀ (fuel : Nat) (rest : List Char), s.length < fuel →
      parseJStringBody fuel (escList s ++ '"' :: rest) = some (s, rest) := by
  induction s with
  | nil =>
      intro fuel rest hf
      cases fuel with
      | zero => omega
      | succ f => rfl
  | cons c s ih =>
      intro fuel rest hf
      cases fuel with
      | zero => omega
      | succ f =>
          rw [escList, List.append_assoc, parseJStringBody_escape,
            ih f rest (by simpa using Nat.lt_of_succ_lt_succ hf)]
          rfl

theorem escList_length_ge (s : List Char) : s.length ≤ (escList s).length := by
  induction s with
  | nil => simp [escList]
  | cons c cs ih =>
      have h1 : 1 ≤ (escapeChar c).length := by
        by_cases h : c = '"' <;> by_cases h2 : c = '\\' <;>
          simp [escapeChar, h, h2] <;> split_ifs <;> simp
      simp only [escList, List.length_append, List.length_cons]
      omega

theorem parseJValue_quote (f : Nat) (r : List Char) :
    parseJValue (f + 1) ('"' :: r)
      = match parseJStringBody (r.length + 1) r with
        | none => none
        | some (body, rest) => some (.str (String.mk body), rest) := rfl

theorem parseJValue_bracket (f : Nat) (r : List Char) :
    parseJValue (f + 1) ('[' :: r)
      = match dropWs r with
        | ']' :: rest => some (.arr [], rest)
        | other =>
            match parseJItems f other with
            | none => none
            | some (vs, rest) => some (.arr vs, rest) := rfl

theorem parseJValue_brace (f : Nat) (r : List Char) :
    parseJValue (f + 1) ('{' :: r)
      = match dropWs r with
        | '}' :: rest => some (.obj [], rest)
        | other =>
            match parseJMembers f other with
            | none => none
            | some (ms, rest) => some (.obj ms, rest) := rfl

theorem parseJItems_step (f : Nat) (cs : List Char) :
    parseJItems (f + 1) cs
      = match parseJValue f cs with
        | none => none
        | some (v, r) =>
            match dropWs r with
            | ',' :: r2 =>
                match parseJItems f r2 with
                | none => none
                | some (vs, rest) => some (v :: vs, rest)
            | ']' :: rest => some ([v], rest)
            | _ => none := rfl

theorem parseJMembers_quote (f : Nat) (r : List Char) :
    parseJMembers (f + 1) ('"' :: r)
      = match parseJStringBody (r.length + 1) r with
        | none => none
        | some (key, r1) =>
            match dropWs r1 with
            | ':' :: r2 =>
                match parseJValue f r2 with
                | none => none
                | some (v, r3) =>
                    match dropWs r3 with
                    | ',' :: r4 =>
                        match parseJMembers f r4 with
                        | none => none
                        | some (ms, rest) => some ((String.mk key, v) :: ms, rest)
                    | '}' :: rest => some ([(String.mk key, v)], rest)
                    | _ => none
            | _ => none := rfl

theorem dropWs_cons_neg (c : Char) (t : List Char) (h : isJsonWs c = false) :
    dropWs (c :: t) = c :: t := by
  simp [dropWs, h]

theorem stringifyL_head (j : Json) :
    ∃ c t, stringifyL j = c :: t ∧ isJsonWs c = false ∧ c ≠ ']' ∧ c ≠ '}' ∧ c ≠ ',' := by
  cases j with
  | null => exact ⟨'n', _, rfl, by decide, by decide, by decide, by decide⟩
  | bool b =>
      cases b with
      | true => exact ⟨'t', _, rfl, by decide, by decide, by decide, by decide⟩
      | false => exact ⟨'f', _, rfl, by decide, by decide, by decide, by decide⟩
  | str s => exact ⟨'"', _, rfl, by decide, by decide, by decide, by decide⟩
  | arr es => exact ⟨'[', _, rfl, by decide, by decide, by decide, by decide⟩
  | obj ms => exact ⟨'{', _, rfl, by decide, by decide, by decide, by decide⟩
  | num q =>
      obtain ⟨c, t, hct, hc⟩ := renderQ_head q
      refine ⟨c, t, hct, ?_, ?_, ?_, ?_⟩ <;>
        rcases hc with h1 | h2
      · subst h1; decide
      · exact isDig_not_ws c h2
      · subst h1; decide
      · exact (isDig_ne c h2).2.2.2.2.2.2.2.2.1
      · subst h1; decide
      · exact (isDig_ne c h2).2.2.2.2.2.2.2.2.2.1
      · subst h1; decide
      · exact (isDig_ne c h2).2.2.2.2.2.2.2.2.2.2.1

theorem stringifyL_length_pos (j : Json) : 1 ≤ (stringifyL j).length := by
  obtain ⟨c, t, hct, _⟩ := stringifyL_head j
  rw [hct]
  simp

theorem parseJValue_to_number (f : Nat) (c : Char) (r : List Char)
    (hc : c = '-' ∨ isDig c = true) :
    parseJValue (f + 1) (c :: r)
      = match parseJNumber (c :: r) with
        | none => none
        | some (q, rest) => some (.num q, rest) := by
  have hws : isJsonWs c = false := by
    rcases hc with h1 | h2
    · subst h1; decide
    · exact isDig_not_ws c h2
  have hn : c ≠ 'n' := by
    rcases hc with h1 | h2
    · subst h1; decide
    · exact (isDig_ne c h2).2.2.2.2.2.2.2.2.2.2.2.2.1
  have ht : c ≠ 't' := by
    rcases hc with h1 | h2
    · subst h1; decide
    · exact (isDig_ne c h2).2.2.2.2.2.2.2.2.2.2.2.2.2.1
  have hf2 : c ≠ 'f' := by
    rcases hc with h1 | h2
    · subst h1; decide
    · exact (isDig_ne c h2).2.2.2.2.2.2.2.2.2.2.2.2.2.2
  have hq : c ≠ '"' := by
    rcases hc with h1 | h2
    · subst h1; decide
    · exact (isDig_ne c h2).2.2.2.2.2.1
  have hbk : c ≠ '[' := by
    rcases hc with h1 | h2
    · subst h1; decide
    · exact (isDig_ne c h2).2.2.2.2.2.2.1
  have hbc : c ≠ '{' := by
    rcases hc with h1 | h2
    · subst h1; decide
    · exact (isDig_ne c h2).2.2.2.2.2.2.2.1
  have hd : (c = '-' || isDig c) = true := by
    rcases hc with h1 | h2
    · subst h1; simp
    · simp [h2]
  simp only [parseJValue, dropWs_cons_neg c r hws]
  simp [hn, ht, hf2, hq, hbk, hbc, hd]

theorem stringifyItems_head (e : Json) (es : List Json) :
    ∃ c t, stringifyItems (e :: es) = c :: t ∧ isJsonWs c = false ∧ c ≠ ']' ∧ c ≠ '}' := by
  obtain ⟨c, t, hct, hws, h1, h2, _⟩ := stringifyL_head e
  cases es with
  | nil => exact ⟨c, t, hct, hws, h1, h2⟩
  | cons x xs =>
      refine ⟨c, t ++ ',' :: stringifyItems (x :: xs), ?_, hws, h1, h2⟩
      show stringifyL e ++ ',' :: stringifyItems (x :: xs) = _
      rw [hct]
      simp

theorem stringifyMembers_head (k : String) (v : Json) (ms : List (String × Json)) :
    ∃ t, stringifyMembers ((k, v) :: ms) = '"' :: t := by
  cases ms with
  | nil =>
      refine ⟨escList k.data ++ '"' :: (':' :: stringifyL v), ?_⟩
      show strLit k ++ ':' :: stringifyL v = _
      rw [strLit]
      simp
  | cons kv2 ms2 =>
      refine ⟨escList k.data ++ '"' ::
        (':' :: (stringifyL v ++ ',' :: stringifyMembers (kv2 :: ms2))), ?_⟩
      show strLit k ++ ':' :: stringifyL v ++ ',' :: stringifyMembers (kv2 :: ms2) = _
      rw [strLit]
      simp

theorem rt_all : ∀ fuel : Nat,
    (∀ j rest, jsonNumsOK j = true → (stringifyL j).length < fuel →
      numBoundary rest = true →
      parseJValue fuel (stringifyL j ++ rest) = some (j, rest)) ∧
    (∀ e es rest, itemsNumsOK (e :: es) = true →
      (stringifyItems (e :: es)).length + 1 < fuel →
      parseJItems fuel (stringifyItems (e :: es) ++ ']' :: rest) = some (e :: es, rest)) ∧
    (∀ kv ms rest, membersNumsOK (kv :: ms) = true →
      (stringifyMembers (kv :: ms)).length + 1 < fuel →
      parseJMembers fuel (stringifyMembers (kv :: ms) ++ '}' :: rest)
        = some (kv :: ms, rest)) := by
  intro fuel
  induction fuel using Nat.strong_induction_on with
  | _ fuel ih =>
      cases fuel with
      | zero =>
          refine ⟨?_, ?_, ?_⟩ <;> (intro _ _ _ _ h; omega)
      | succ f =>
          have ihf := ih f (by omega)
          obtain ⟨ihv, ihi, ihm⟩ := ihf
          refine ⟨?_, ?_, ?_⟩
          · -- values
            intro j rest hwf hlen hrest
            cases j with
            | null => rfl
            | bool b => cases b <;> rfl
            | num q =>
                obtain ⟨c, t, hct, hc⟩ := renderQ_head q
                have hdec : isDecRep q = true := by
                  simpa [jsonNumsOK] using hwf
                show parseJValue (f + 1) (renderQ q ++ rest) = _
                rw [hct, List.cons_append, parseJValue_to_number f c _ hc,
                  ← List.cons_append, ← hct, parseJNumber_renderQ q hdec rest hrest]
            | str s =>
                have hsl : stringifyL (.str s) ++ rest
                    = '"' :: (escList s.data ++ '"' :: rest) := by
                  show strLit s ++ rest = _
                  rw [strLit]
                  simp
                rw [hsl, parseJValue_quote]
                have hfe : s.data.length < (escList s.data ++ '"' :: rest).length + 1 := by
                  have := escList_length_ge s.data
                  simp only [List.length_append, List.length_cons]
                  omega
                rw [parseJStringBody_escList s.data _ rest hfe]
            | arr es =>
                cases es with
                | nil => rfl
                | cons e es' =>
                    have hwf' : itemsNumsOK (e :: es') = true := by
                      simpa [jsonNumsOK] using hwf
                    have harr : stringifyL (.arr (e :: es')) ++ rest
                        = '[' :: (stringifyItems (e :: es') ++ ']' :: rest) := by
                      show '[' :: (stringifyItems (e :: es') ++ [']']) ++ rest = _
                      simp
                    rw [harr, parseJValue_bracket]
                    obtain ⟨c, t, hit, hws, hbr, _⟩ := stringifyItems_head e es'
                    have hlen' : (stringifyItems (e :: es')).length + 1 < f := by
                      have : (stringifyL (.arr (e :: es'))).length
                          = (stringifyItems (e :: es')).length + 2 := by
                        show ('[' :: (stringifyItems (e :: es') ++ [']'])).length = _
                        simp
                      omega
                    have hkey := ihi e es' rest hwf' hlen'
                    rw [hit, List.cons_append, dropWs_cons_neg c _ hws]
                    rw [hit, List.cons_append] at hkey
                    split
                    · rename_i rest' heq
                      injection heq with e1 _
                      exact absurd e1 hbr
                    · simp only [hkey]
            | obj ms =>
                cases ms with
                | nil => rfl
                | cons kv ms' =>
                    have hwf' : membersNumsOK (kv :: ms') = true := by
                      simpa [jsonNumsOK] using hwf
                    have hobj : stringifyL (.obj (kv :: ms')) ++ rest
                        = '{' :: (stringifyMembers (kv :: ms') ++ '}' :: rest) := by
                      show '{' :: (stringifyMembers (kv :: ms') ++ ['}']) ++ rest = _
                      simp
                    rw [hobj, parseJValue_brace]
                    have hlen' : (stringifyMembers (kv :: ms')).length + 1 < f := by
                      have : (stringifyL (.obj (kv :: ms'))).length
                          = (stringifyMembers (kv :: ms')).length + 2 := by
                        show ('{' :: (stringifyMembers (kv :: ms') ++ ['}'])).length = _
                        simp
                      omega
                    have hkey := ihm kv ms' rest hwf' hlen'
                    obtain ⟨k, v⟩ := kv
                    obtain ⟨t2, hh⟩ := stringifyMembers_head k v ms'
                    rw [hh, List.cons_append, dropWs_cons_neg '"' _ (by decide)]
                    rw [hh, List.cons_append] at hkey
                    split
                    · rename_i rest' heq
                      injection heq with e1 _
                      exact absurd e1 (by decide)
                    · simp only [hkey]
          · -- items
            intro e es rest hwf hlen
            obtain ⟨hwe, hwes⟩ : jsonNumsOK e = true ∧ itemsNumsOK es = true := by
              simpa [itemsNumsOK] using hwf
            rw [parseJItems_step]
            cases es with
            | nil =>
                have hsi : stringifyItems [e] = stringifyL e := rfl
                rw [hsi]
                have hb : numBoundary (']' :: rest) = true := rfl
                have hle : (stringifyL e).length < f := by
                  rw [hsi] at hlen; omega
                rw [ihv e (']' :: rest) hwe hle hb]
                rfl
            | cons x xs =>
                have hsi : stringifyItems (e :: x :: xs)
                    = stringifyL e ++ ',' :: stringifyItems (x :: xs) := rfl
                have harr : stringifyItems (e :: x :: xs) ++ ']' :: rest
                    = stringifyL e ++ (',' :: (stringifyItems (x :: xs) ++ ']' :: rest)) := by
                  rw [hsi]; simp
                have hlenE : (stringifyL e).length < f := by
                  have h1 : (stringifyItems (e :: x :: xs)).length
                      = (stringifyL e).length + 1 + (stringifyItems (x :: xs)).length := by
                    rw [hsi]; simp; omega
                  omega
                have hlenT : (stringifyItems (x :: xs)).length + 1 < f := by
                  have h1 : (stringifyItems (e :: x :: xs)).length
                      = (stringifyL e).length + 1 + (stringifyItems (x :: xs)).length := by
                    rw [hsi]; simp; omega
                  have h2 := stringifyL_length_pos e
                  omega
                have hb : numBoundary (',' :: (stringifyItems (x :: xs) ++ ']' :: rest)) = true := rfl
                rw [harr, ihv e _ hwe hlenE hb]
                have hrec := ihi x xs rest hwes hlenT
                dsimp only
                rw [dropWs_cons_neg ',' _ (by decide)]
                simp only [hrec]
          · -- members
            intro kv ms rest hwf hlen
            obtain ⟨k, v⟩ := kv
            obtain ⟨hwv, hwms⟩ : jsonNumsOK v = true ∧ membersNumsOK ms = true := by
              simpa [membersNumsOK] using hwf
            cases ms with
            | nil =>
                have hsm : stringifyMembers [(k, v)] ++ '}' :: rest
                    = '"' :: (escList k.data ++ '"' ::
                        (':' :: (stringifyL v ++ '}' :: rest))) := by
                  show (strLit k ++ ':' :: stringifyL v) ++ '}' :: rest = _
                  rw [strLit]
                  simp
                have hm : (stringifyMembers [(k, v)]).length
                    = (strLit k).length + 1 + (stringifyL v).length := by
                  show (strLit k ++ ':' :: stringifyL v).length = _
                  simp
                  omega
                rw [hsm, parseJMembers_quote]
                have hfe : k.data.length
                    < (escList k.data ++ '"' ::
                        (':' :: (stringifyL v ++ '}' :: rest))).length + 1 := by
                  have := escList_length_ge k.data
                  simp only [List.length_append, List.length_cons]
                  omega
                rw [parseJStringBody_escList k.data _ _ hfe]
                have hlv : (stringifyL v).length < f := by
                  have hk2 : 2 ≤ (strLit k).length := by
                    rw [strLit]
                    simp
                  omega
                have hval := ihv v ('}' :: rest) hwv hlv rfl
                dsimp only
                rw [dropWs_cons_neg ':' _ (by decide)]
                simp only [hval]
                rw [dropWs_cons_neg '}' _ (by decide)]
                rfl
            | cons kv2 ms2 =>
                have hsm : stringifyMembers ((k, v) :: kv2 :: ms2) ++ '}' :: rest
                    = '"' :: (escList k.data ++ '"' ::
                        (':' :: (stringifyL v ++
                          ',' :: (stringifyMembers (kv2 :: ms2) ++ '}' :: rest)))) := by
                  show (strLit k ++ ':' :: stringifyL v ++
                      ',' :: stringifyMembers (kv2 :: ms2)) ++ '}' :: rest = _
                  rw [strLit]
                  simp
                have hm : (stringifyMembers ((k, v) :: kv2 :: ms2)).length
                    = (strLit k).length + 1 + (stringifyL v).length + 1 +
                      (stringifyMembers (kv2 :: ms2)).length := by
                  show (strLit k ++ ':' :: stringifyL v ++
                      ',' :: stringifyMembers (kv2 :: ms2)).length = _
                  simp
                  omega
                rw [hsm, parseJMembers_quote]
                have hfe : k.data.length
                    < (escList k.data ++ '"' ::
                        (':' :: (stringifyL v ++
                          ',' :: (stringifyMembers (kv2 :: ms2) ++ '}' :: rest)))).length + 1 := by
                  have := escList_length_ge k.data
                  simp only [List.length_append, List.length_cons]
                  omega
                rw [parseJStringBody_escList k.data _ _ hfe]
                have hk2 : 2 ≤ (strLit k).length := by
                  rw [strLit]
                  simp
                have hlv : (stringifyL v).length < f := by
                  omega
                have hlm : (stringifyMembers (kv2 :: ms2)).length + 1 < f := by
                  omega
                have hval := ihv v
                  (',' :: (stringifyMembers (kv2 :: ms2) ++ '}' :: rest)) hwv hlv rfl
                have hrec := ihm kv2 ms2 rest hwms hlm
                dsimp only
                rw [dropWs_cons_neg ':' _ (by decide)]
                simp only [hval]
                rw [dropWs_cons_neg ',' _ (by decide)]
                simp only [hrec]

theorem jsonParse_jsonStringify (j : Json) (h : jsonNumsOK j = true) :
    jsonParse (jsonStringify j) = some j := by
  have hv := (rt_all ((stringifyL j).length + 1)).1 j [] h (by omega) rfl
  rw [List.append_nil] at hv
  show (match parseJValue ((stringifyL j).length + 1) (stringifyL j) with
        | none => none
        | some (jv, rest) => if dropWs rest = [] then some jv else none) = some j
  rw [hv]
  rfl

theorem severityOfString_severityString (s : Severity) :
    severityOfString (severityString s) = some s := by
  cases s <;> rfl

theorem actionKindOfString_actionKindString (k : CopilotActionKind) :
    actionKindOfString (actionKindString k) = some k := by
  cases k <;> rfl

theorem decodeInsight_insightToJson (i : Insight) :
    decodeInsight (insightToJson i) = some i := by
  obtain ⟨t, d, sv⟩ := i
  cases sv <;> rfl

theorem decodeSuggestedAction_suggestedActionToJson (a : SuggestedAction) :
    decodeSuggestedAction (suggestedActionToJson a) = some a := by
  obtain ⟨l, k, p⟩ := a
  cases k <;> rfl

theorem decodeAll_map {α : Type} (f : Json → Option α) (g : α → Json)
    (hf : ∀ a, f (g a) = some a) (l : List α) :
    decodeAll f (l.map g) = some l := by
  induction l with
  | nil => rfl
  | cons a l ih =>
      show decodeAll f (g a :: l.map g) = _
      simp [decodeAll, hf a, ih]

theorem copilotSafeParse_responseToJson (r : CopilotResponse)
    (h0 : 0 ≤ r.confidenceScore) (h1 : r.confidenceScore ≤ 1) :
    copilotSafeParse (responseToJson r) = some r := by
  obtain ⟨s, ins, acts, ws, score⟩ := r
  have hi : decodeAll decodeInsight (ins.map insightToJson) = some ins :=
    decodeAll_map decodeInsight insightToJson decodeInsight_insightToJson ins
  have ha : decodeAll decodeSuggestedAction (acts.map suggestedActionToJson) = some acts :=
    decodeAll_map decodeSuggestedAction suggestedActionToJson
      decodeSuggestedAction_suggestedActionToJson acts
  have hw : decodeAll asString (ws.map Json.str) = some ws :=
    decodeAll_map asString Json.str (fun w => rfl) ws
  show ((decodeAll decodeInsight (ins.map insightToJson)).bind (fun iv =>
      ((decodeAll decodeSuggestedAction (acts.map suggestedActionToJson)).bind (fun av =>
        ((decodeAll asString (ws.map Json.str)).bind (fun wv =>
          if 0 ≤ score ∧ score ≤ 1 then
            some (CopilotResponse.mk s iv av wv score)
          else none)))))) = some (CopilotResponse.mk s ins acts ws score)
  rw [hi, ha, hw]
  exact if_pos ⟨h0, h1⟩

/-- Claim C3: for every valid StructuredResponse value, serializing it with
JSON.stringify and running the repair-and-validate engine on the resulting
text yields an equal value, and the direct parse-and-validate step alone
already succeeds, so the repair step is never consulted. -/
theorem claim_C3_serialize_roundtrip (v : CopilotResponse)
    (h0 : 0 ≤ v.confidenceScore) (h1 : v.confidenceScore ≤ 1)
    (hn : jsonNumsOK (responseToJson v) = true) :
    (jsonParse (jsonStringify (responseToJson v))).bind copilotSafeParse = some v ∧
    parseAndValidate (jsonStringify (responseToJson v)) = some v := by
  have hp := jsonParse_jsonStringify (responseToJson v) hn
  have hs := copilotSafeParse_responseToJson v h0 h1
  constructor
  · rw [hp]
    simpa using hs
  · show (match jsonParse (jsonStringify (responseToJson v)) with
      | some parsed =>
          match copilotSafeParse parsed with
          | some r => some r
          | none => repairAttempt (jsonStringify (responseToJson v))
      | none => repairAttempt (jsonStringify (responseToJson v))) = some v
    rw [hp]
    show (match copilotSafeParse (responseToJson v) with
      | some r => some r
      | none => repairAttempt (jsonStringify (responseToJson v))) = some v
    rw [hs]

/-- Claim C2: for every text input that neither parses directly as
schema-conforming JSON nor becomes schema-conforming after the single
repair pass, parseAndValidate signals failure with none (the source's
null), and the response delivered in that case is exactly the constant
FALLBACK_RESPONSE: empty insights, empty suggestedActions, exactly one
warning stating validation failed, a summary stating analysis is
unavailable, and confidenceScore exactly 0. -/
theorem claim_C2_fallback (raw : String)
    (hd : (jsonParse raw).bind copilotSafeParse = none)
    (hr : repairAttempt raw = none) :
    parseAndValidate raw = none ∧
    (raw ≠ "" → streamFinal raw = FALLBACK_RESPONSE) ∧
    FALLBACK_RESPONSE.insights = [] ∧
    FALLBACK_RESPONSE.suggestedActions = [] ∧
    FALLBACK_RESPONSE.warnings = ["AI response validation failed."] ∧
    FALLBACK_RESPONSE.summary = "Unable to analyze dashboard data at this time." ∧
    FALLBACK_RESPONSE.confidenceScore = 0 := by
  have hpv : parseAndValidate raw = none := by
    show (match jsonParse raw with
      | some parsed =>
          match copilotSafeParse parsed with
          | some r => some r
          | none => repairAttempt raw
      | none => repairAttempt raw) = none
    cases hj : jsonParse raw with
    | none => exact hr
    | some p =>
        have hcp : copilotSafeParse p = none := by
          rw [hj] at hd
          simpa using hd
        show (match copilotSafeParse p with
          | some r => some r
          | none => repairAttempt raw) = none
        rw [hcp]
        exact hr
  refine ⟨hpv, ?_, rfl, rfl, rfl, rfl, rfl⟩
  intro hne
  show (if raw = "" then FALLBACK_RESPONSE
        else match parseAndValidate raw with
             | some v => v
             | none => FALLBACK_RESPONSE) = FALLBACK_RESPONSE
  rw [if_neg hne, hpv]

theorem claim_C3_serialize_roundtrip_witness :
    (0 ≤ FALLBACK_RESPONSE.confidenceScore ∧ FALLBACK_RESPONSE.confidenceScore ≤ 1 ∧
     jsonNumsOK (responseToJson FALLBACK_RESPONSE) = true) ∧
    ((jsonParse (jsonStringify (responseToJson FALLBACK_RESPONSE))).bind copilotSafeParse
        = some FALLBACK_RESPONSE ∧
     parseAndValidate (jsonStringify (responseToJson FALLBACK_RESPONSE))
        = some FALLBACK_RESPONSE) :=
  ⟨⟨by decide, by decide, rfl⟩,
   claim_C3_serialize_roundtrip FALLBACK_RESPONSE (by decide) (by decide) rfl⟩

theorem claim_C2_fallback_witness :
    ((jsonParse ("not json")).bind copilotSafeParse = none ∧
     repairAttempt ("not json") = none) ∧
    (parseAndValidate ("not json") = none ∧
     (("not json" : String) ≠ "" → streamFinal ("not json") = FALLBACK_RESPONSE) ∧
     FALLBACK_RESPONSE.insights = [] ∧
     FALLBACK_RESPONSE.suggestedActions = [] ∧
     FALLBACK_RESPONSE.warnings = ["AI response validation failed."] ∧
     FALLBACK_RESPONSE.summary = "Unable to analyze dashboard data at this time." ∧
     FALLBACK_RESPONSE.confidenceScore = 0) :=
  ⟨⟨rfl, rfl⟩, claim_C2_fallback ("not json") rfl rfl⟩

theorem digitCh_ne_nl : ∀ m : Nat, m < 10 → Char.ofNat (48 + m) ≠ '\n' := by decide

theorem hexCh_ne_nl : ∀ m : Nat, m < 16 → hexDigitChar m ≠ '\n' := by decide

theorem natChars_ne_nl : ∀ fuel n : Nat, ∀ d ∈ natChars fuel n, d ≠ '\n' := by
  intro fuel
  induction fuel with
  | zero => intro n d hd; simp [natChars] at hd
  | succ f ih =>
      intro n d hd
      rw [natChars] at hd
      by_cases h : n < 10
      · rw [if_pos h] at hd
        simp at hd
        subst hd
        exact digitCh_ne_nl n h
      · rw [if_neg h] at hd
        simp at hd
        rcases hd with hd | hd
        · exact ih _ d hd
        · subst hd
          exact digitCh_ne_nl _ (Nat.mod_lt _ (by omega))

theorem digitsOf_ne_nl (n : Nat) : ∀ d ∈ digitsOf n, d ≠ '\n' :=
  natChars_ne_nl (n + 1) n

theorem sgn_ne_nl (q : ℚ) : ∀ d ∈ (if q < 0 then ['-'] else ([] : List Char)), d ≠ '\n' := by
  intro d hd
  by_cases h : q < 0
  · rw [if_pos h] at hd
    simp at hd
    subst hd
    decide
  · rw [if_neg h] at hd
    simp at hd

theorem renderQ_ne_nl (q : ℚ) : ∀ d ∈ renderQ q, d ≠ '\n' := by
  intro d hd
  simp only [renderQ] at hd
  by_cases hk : decPow |q| = 0
  · rw [if_pos hk] at hd
    rcases List.mem_append.mp hd with hd | hd
    · exact sgn_ne_nl q d hd
    · exact digitsOf_ne_nl _ d hd
  · rw [if_neg hk] at hd
    rcases List.mem_append.mp hd with hd | hd
    · rcases List.mem_append.mp hd with hd | hd
      · exact sgn_ne_nl q d hd
      · exact digitsOf_ne_nl _ d hd
    · rcases List.mem_cons.mp hd with hd | hd
      · subst hd; decide
      · rcases List.mem_append.mp hd with hd | hd
        · rw [List.eq_of_mem_replicate hd]; decide
        · exact digitsOf_ne_nl _ d hd

theorem escapeChar_ne_nl (c : Char) : ∀ d ∈ escapeChar c, d ≠ '\n' := by
  intro d hd
  rw [escapeChar] at hd
  by_cases h1 : c = '"'
  · rw [if_pos h1] at hd
    rcases List.mem_cons.mp hd with hd | hd
    · subst hd; decide
    rcases List.mem_cons.mp hd with hd | hd
    · subst hd; decide
    · simp at hd
  · rw [if_neg h1] at hd
    by_cases h2 : c = '\\'
    · rw [if_pos h2] at hd
      rcases List.mem_cons.mp hd with hd | hd
      · subst hd; decide
      rcases List.mem_cons.mp hd with hd | hd
      · subst hd; decide
      · simp at hd
    · rw [if_neg h2] at hd
      by_cases h3 : c = '\n'
      · rw [if_pos h3] at hd
        rcases List.mem_cons.mp hd with hd | hd
        · subst hd; decide
        rcases List.mem_cons.mp hd with hd | hd
        · subst hd; decide
        · simp at hd
      · rw [if_neg h3] at hd
        by_cases h4 : c = '\r'
        · rw [if_pos h4] at hd
          rcases List.mem_cons.mp hd with hd | hd
          · subst hd; decide
          rcases List.mem_cons.mp hd with hd | hd
          · subst hd; decide
          · simp at hd
        · rw [if_neg h4] at hd
          by_cases h5 : c = '\t'
          · rw [if_pos h5] at hd
            rcases List.mem_cons.mp hd with hd | hd
            · subst hd; decide
            rcases List.mem_cons.mp hd with hd | hd
            · subst hd; decide
            · simp at hd
          · rw [if_neg h5] at hd
            by_cases h6 : c = Char.ofNat 8
            · rw [if_pos h6] at hd
              rcases List.mem_cons.mp hd with hd | hd
              · subst hd; decide
              rcases List.mem_cons.mp hd with hd | hd
              · subst hd; decide
              · simp at hd
            · rw [if_neg h6] at hd
              by_cases h7 : c = Char.ofNat 12
              · rw [if_pos h7] at hd
                rcases List.mem_cons.mp hd with hd | hd
                · subst hd; decide
                rcases List.mem_cons.mp hd with hd | hd
                · subst hd; decide
                · simp at hd
              · rw [if_neg h7] at hd
                by_cases h8 : c.toNat < 32
                · rw [if_pos h8] at hd
                  rcases List.mem_cons.mp hd with hd | hd
                  · subst hd; decide
                  rcases List.mem_cons.mp hd with hd | hd
                  · subst hd; decide
                  rcases List.mem_cons.mp hd with hd | hd
                  · subst hd; decide
                  rcases List.mem_cons.mp hd with hd | hd
                  · subst hd; decide
                  rcases List.mem_cons.mp hd with hd | hd
                  · subst hd; exact hexCh_ne_nl _ (by omega)
                  rcases List.mem_cons.mp hd with hd | hd
                  · subst hd; exact hexCh_ne_nl _ (Nat.mod_lt _ (by omega))
                  · simp at hd
                · rw [if_neg h8] at hd
                  rcases List.mem_cons.mp hd with hd | hd
                  · subst hd; exact h3
                  · simp at hd

theorem escList_ne_nl : ∀ l : List Char, ∀ d ∈ escList l, d ≠ '\n' := by
  intro l
  induction l with
  | nil => intro d hd; simp [escList] at hd
  | cons c cs ih =>
      intro d hd
      rw [escList] at hd
      rcases List.mem_append.mp hd with hd | hd
      · exact escapeChar_ne_nl c d hd
      · exact ih d hd

theorem strLit_ne_nl (s : String) : ∀ d ∈ strLit s, d ≠ '\n' := by
  intro d hd
  rw [strLit] at hd
  rcases List.mem_cons.mp hd with hd | hd
  · subst hd; decide
  rcases List.mem_append.mp hd with hd | hd
  · exact escList_ne_nl s.data d hd
  · rcases List.mem_cons.mp hd with hd | hd
    · subst hd; decide
    · simp at hd

theorem stringify_ne_nl_all : ∀ n : Nat,
    (∀ j, (stringifyL j).length < n → ∀ d ∈ stringifyL j, d ≠ '\n') ∧
    (∀ es, (stringifyItems es).length + 1 < n → ∀ d ∈ stringifyItems es, d ≠ '\n') ∧
    (∀ ms, (stringifyMembers ms).length + 1 < n → ∀ d ∈ stringifyMembers ms, d ≠ '\n') := by
  intro n
  induction n using Nat.strong_induction_on with
  | _ n ih =>
      cases n with
      | zero =>
          refine ⟨?_, ?_, ?_⟩ <;> (intro x h; exact absurd h (by omega))
      | succ f =>
          obtain ⟨ihv, ihi, ihm⟩ := ih f (by omega)
          refine ⟨?_, ?_, ?_⟩
          · intro j hlen d hd
            cases j with
            | null =>
                exact (by decide : ∀ d ∈ (['n', 'u', 'l', 'l'] : List Char), d ≠ '\n') d hd
            | bool b =>
                cases b with
                | true =>
                    exact (by decide :
                      ∀ d ∈ (['t', 'r', 'u', 'e'] : List Char), d ≠ '\n') d hd
                | false =>
                    exact (by decide :
                      ∀ d ∈ (['f', 'a', 'l', 's', 'e'] : List Char), d ≠ '\n') d hd
            | num q => exact renderQ_ne_nl q d hd
            | str s => exact strLit_ne_nl s d hd
            | arr es =>
                have hL : (stringifyL (.arr es)).length
                    = (stringifyItems es).length + 2 := by
                  show ('[' :: (stringifyItems es ++ [']'])).length = _
                  simp
                have hd' : d ∈ '[' :: (stringifyItems es ++ [']']) := hd
                rcases List.mem_cons.mp hd' with hd2 | hd2
                · subst hd2; decide
                rcases List.mem_append.mp hd2 with hd3 | hd3
                · exact ihi es (by omega) d hd3
                · rcases List.mem_cons.mp hd3 with hd4 | hd4
                  · subst hd4; decide
                  · simp at hd4
            | obj ms =>
                have hL : (stringifyL (.obj ms)).length
                    = (stringifyMembers ms).length + 2 := by
                  show ('{' :: (stringifyMembers ms ++ ['}'])).length = _
                  simp
                have hd' : d ∈ '{' :: (stringifyMembers ms ++ ['}']) := hd
                rcases List.mem_cons.mp hd' with hd2 | hd2
                · subst hd2; decide
                rcases List.mem_append.mp hd2 with hd3 | hd3
                · exact ihm ms (by omega) d hd3
                · rcases List.mem_cons.mp hd3 with hd4 | hd4
                  · subst hd4; decide
                  · simp at hd4
          · intro es hlen d hd
            cases es with
            | nil => exact absurd hd (by simp [stringifyItems])
            | cons e es' =>
                cases es' with
                | nil =>
                    have he : stringifyItems [e] = stringifyL e := rfl
                    rw [he] at hd hlen
                    exact ihv e (by omega) d hd
                | cons x xs =>
                    have hsi : stringifyItems (e :: x :: xs)
                        = stringifyL e ++ ',' :: stringifyItems (x :: xs) := rfl
                    have hL : (stringifyItems (e :: x :: xs)).length
                        = (stringifyL e).length + 1 + (stringifyItems (x :: xs)).length := by
                      rw [hsi]; simp; omega
                    have hpos := stringifyL_length_pos e
                    rw [hsi] at hd
                    rcases List.mem_append.mp hd with hd2 | hd2
                    · exact ihv e (by omega) d hd2
                    rcases List.mem_cons.mp hd2 with hd3 | hd3
                    · subst hd3; decide
                    · exact ihi (x :: xs) (by omega) d hd3
          · intro ms hlen d hd
            cases ms with
            | nil => exact absurd hd (by simp [stringifyMembers])
            | cons kv ms' =>
                obtain ⟨k, v⟩ := kv
                have hk2 : 2 ≤ (strLit k).length := by
                  rw [strLit]; simp
                cases ms' with
                | nil =>
                    have hm : stringifyMembers [(k, v)]
                        = strLit k ++ ':' :: stringifyL v := rfl
                    have hL : (stringifyMembers [(k, v)]).length
                        = (strLit k).length + 1 + (stringifyL v).length := by
                      rw [hm]; simp; omega
                    rw [hm] at hd
                    rcases List.mem_append.mp hd with hd2 | hd2
                    · exact strLit_ne_nl k d hd2
                    rcases List.mem_cons.mp hd2 with hd3 | hd3
                    · subst hd3; decide
                    · exact ihv v (by omega) d hd3
                | cons kv2 ms2 =>
                    have hm : stringifyMembers ((k, v) :: kv2 :: ms2)
                        = (strLit k ++ (':' :: stringifyL v))
                            ++ (',' :: stringifyMembers (kv2 :: ms2)) := by rfl
                    have hL : (stringifyMembers ((k, v) :: kv2 :: ms2)).length
                        = (strLit k).length + 1 + (stringifyL v).length + 1
                            + (stringifyMembers (kv2 :: ms2)).length := by
                      rw [hm]; simp; omega
                    have hpos := stringifyL_length_pos v
                    rw [hm] at hd
                    rcases List.mem_append.mp hd with hd2 | hd2
                    · rcases List.mem_append.mp hd2 with hd3 | hd3
                      · exact strLit_ne_nl k d hd3
                      · rcases List.mem_cons.mp hd3 with hd4 | hd4
                        · subst hd4; decide
                        · exact ihv v (by omega) d hd4
                    · rcases List.mem_cons.mp hd2 with hd5 | hd5
                      · subst hd5; decide
                      · exact ihm (kv2 :: ms2) (by omega) d hd5

theorem stringifyL_ne_nl (j : Json) : ∀ d ∈ stringifyL j, d ≠ '\n' :=
  (stringify_ne_nl_all ((stringifyL j).length + 1)).1 j (by omega)

theorem dropWhile_append_left (p : Char → Bool) :
    ∀ l₁ l₂ : List Char, l₁.dropWhile p ≠ [] →
      (l₁ ++ l₂).dropWhile p = l₁.dropWhile p ++ l₂ := by
  intro l₁
  induction l₁ with
  | nil => intro l₂ h; simp at h
  | cons c t ih =>
      intro l₂ h
      rw [List.cons_append, List.dropWhile_cons, List.dropWhile_cons]
      rw [List.dropWhile_cons] at h
      by_cases hc : p c
      · simp only [if_pos hc]
        rw [if_pos hc] at h
        exact ih l₂ h
      · rw [if_neg hc, if_neg hc]
        rfl

theorem mem_of_mem_dropWhile (p : Char → Bool) (l : List Char) (d : Char)
    (hd : d ∈ l.dropWhile p) : d ∈ l := by
  obtain ⟨t, ht⟩ := List.dropWhile_suffix (l := l) p
  rw [← ht]
  exact List.mem_append.mpr (Or.inr hd)

theorem getLast_dropWhile (p : Char → Bool) (l : List Char)
    (h : l.dropWhile p ≠ []) :
    (l.dropWhile p).getLast? = l.getLast? := by
  obtain ⟨t, ht⟩ := List.dropWhile_suffix (l := l) p
  conv_rhs => rw [← ht]
  rw [List.getLast?_append]
  cases hx : (l.dropWhile p).getLast? with
  | none => exact absurd (List.getLast?_eq_none_iff.mp hx) h
  | some y => simp

theorem mem_of_getLast (l : List Char) (d : Char) (h : l.getLast? = some d) :
    d ∈ l := by
  cases l with
  | nil => simp at h
  | cons c t =>
      have := List.getLast?_eq_getLast (c :: t) (by simp)
      rw [this] at h
      have h2 : (c :: t).getLast (by simp) = d := by
        injection h
      rw [← h2]
      exact List.getLast_mem _

theorem fenceClose_false (s : List Char) (hne : s ≠ [])
    (hnl : ∀ d ∈ s, isLineTerm d = false) (hlast : s.getLast? = some '}') :
    fenceCloseHere (s ++ '\n' :: fenceChars) = false := by
  have hdw : s.dropWhile isJsWs ≠ [] := by
    intro h0
    have hmem : '}' ∈ s := mem_of_getLast s '}' hlast
    have hws := List.dropWhile_eq_nil_iff.mp h0 '}' hmem
    exact absurd hws (by decide)
  have hu := dropWhile_append_left isJsWs s ('\n' :: fenceChars) hdw
  have hulast : (s.dropWhile isJsWs).getLast? = some '}' := by
    rw [getLast_dropWhile isJsWs s hdw]
    exact hlast
  have humem : ∀ d ∈ s.dropWhile isJsWs, isLineTerm d = false := fun d hd =>
    hnl d (mem_of_mem_dropWhile isJsWs s d hd)
  simp only [fenceCloseHere, hu]
  rcases hu1 : s.dropWhile isJsWs with _ | ⟨d1, u1⟩
  · exact absurd hu1 hdw
  rcases u1 with _ | ⟨d2, u2⟩
  · simp [fenceChars, backquote]
  rcases u2 with _ | ⟨d3, u3⟩
  · simp [fenceChars, backquote]
  rcases u3 with _ | ⟨e, t3⟩
  · have hd3 : d3 = '}' := by
      rw [hu1] at hulast
      simpa using hulast
    subst hd3
    simp [fenceChars, backquote]
  · have he : isLineTerm e = false := by
      apply humem
      rw [hu1]
      simp
    simp [fenceChars, backquote, lineEndsHere, he]

theorem fenceBody_fence : ∀ body : List Char,
    (∀ d ∈ body, isLineTerm d = false) → body.getLast? = some '}' →
    fenceBody (body ++ '\n' :: fenceChars) = some body := by
  intro body
  induction body with
  | nil => intro _ hlast; simp at hlast
  | cons c t ih =>
      intro hnl hlast
      have hCF : fenceCloseHere ((c :: t) ++ '\n' :: fenceChars) = false :=
        fenceClose_false (c :: t) (by simp) hnl hlast
      show (if fenceCloseHere (c :: (t ++ '\n' :: fenceChars)) then some []
            else (fenceBody (t ++ '\n' :: fenceChars)).map (fun g => c :: g))
          = some (c :: t)
      rw [List.cons_append] at hCF
      rw [hCF]
      simp only [Bool.false_eq_true, if_false]
      cases t with
      | nil =>
          have hc : c = '}' := by
            simpa using hlast
          subst hc
          rfl
      | cons x t' =>
          have hrec : fenceBody ((x :: t') ++ '\n' :: fenceChars) = some (x :: t') := by
            apply ih
            · intro d hd
              exact hnl d (List.mem_cons_of_mem c hd)
            · rw [← List.getLast?_cons_cons]
              exact hlast
          rw [hrec]
          rfl

theorem jsTrimL_eq_self (c : Char) (t : List Char) (hc : isJsWs c = false)
    (d : Char) (hd : (c :: t).getLast? = some d) (hdws : isJsWs d = false) :
    jsTrimL (c :: t) = c :: t := by
  rw [jsTrimL]
  rw [List.dropWhile_cons, if_neg (by simp [hc])]
  cases hr : (c :: t).reverse with
  | nil => exact absurd (List.reverse_eq_nil_iff.mp hr) (by simp)
  | cons e r =>
      have he : e = d := by
        have h1 : (c :: t).reverse.head? = (c :: t).getLast? := List.head?_reverse _
        rw [hr, hd] at h1
        simpa using h1
      subst he
      rw [List.dropWhile_cons, if_neg (by simp [hdws])]
      rw [← hr, List.reverse_reverse]

theorem parseJValue_backquote (f : Nat) (r : List Char) :
    parseJValue (f + 1) (backquote :: r) = none := rfl

theorem obj_stringify_shape (ms : List (String × Json)) :
    stringifyL (.obj ms) = '{' :: (stringifyMembers ms ++ ['}']) := rfl

theorem obj_stringify_getLast (ms : List (String × Json)) :
    (stringifyL (.obj ms)).getLast? = some '}' := by
  rw [obj_stringify_shape]
  rw [show '{' :: (stringifyMembers ms ++ ['}'])
      = ('{' :: stringifyMembers ms) ++ ['}'] from rfl]
  rw [List.getLast?_append]
  rfl

theorem fenceAt_open (R : List Char) :
    fenceAt (backquote :: backquote :: backquote :: R)
      = fenceBody ((if jsonTagChars.isPrefixOf R then R.drop 4 else R).dropWhile isJsWs) := by
  simp only [fenceAt]
  rw [if_pos ?hp]
  case hp => simp [fenceChars, List.isPrefixOf]
  rfl

theorem fenceExec_of_at (cs g : List Char) (h : fenceAt cs = some g) :
    fenceExec cs = some g := by
  simp only [fenceExec]
  rw [h]

theorem dropNl_body (ms : List (String × Json)) :
    ('\n' :: (stringifyL (.obj ms) ++ '\n' :: fenceChars)).dropWhile isJsWs
      = stringifyL (.obj ms) ++ '\n' :: fenceChars := by
  rw [List.dropWhile_cons, if_pos (by decide)]
  rw [obj_stringify_shape, List.cons_append, List.dropWhile_cons, if_neg (by decide)]

theorem fenceBody_obj (ms : List (String × Json))
    (hterm : ∀ d ∈ stringifyL (Json.obj ms), isLineTerm d = false) :
    fenceBody (stringifyL (.obj ms) ++ '\n' :: fenceChars)
      = some (stringifyL (.obj ms)) :=
  fenceBody_fence _ hterm (obj_stringify_getLast ms)

theorem braceSlice_obj (ms : List (String × Json)) :
    braceSlice (stringifyL (.obj ms)) = stringifyL (.obj ms) := by
  have h1 : firstIdxOf '{' (stringifyL (.obj ms)) = some 0 := by
    rw [obj_stringify_shape]
    simp [firstIdxOf]
  have hlen : (stringifyL (.obj ms)).length = (stringifyMembers ms).length + 2 := by
    rw [obj_stringify_shape]
    simp
  have h2 : lastIdxOf '}' (stringifyL (.obj ms))
      = some ((stringifyMembers ms).length + 1) := by
    rw [lastIdxOf]
    have hrev : (stringifyL (.obj ms)).reverse
        = '}' :: ('{' :: stringifyMembers ms).reverse := by
      rw [obj_stringify_shape,
        show '{' :: (stringifyMembers ms ++ ['}'])
          = ('{' :: stringifyMembers ms) ++ ['}'] from rfl]
      simp
    rw [hrev]
    simp [hlen]
  rw [braceSlice, h1, h2]
  show (if 0 < (stringifyMembers ms).length + 1 then
          List.take ((stringifyMembers ms).length + 1 + 1 - 0)
            (List.drop 0 (stringifyL (Json.obj ms)))
        else stringifyL (Json.obj ms)) = stringifyL (Json.obj ms)
  rw [if_pos (by omega)]
  simp only [List.drop_zero]
  rw [show (stringifyMembers ms).length + 1 + 1 - 0
      = (stringifyL (.obj ms)).length by omega]
  exact List.take_length _

theorem obj_stringify_ne_nil (ms : List (String × Json)) :
    stringifyL (Json.obj ms) ≠ [] := by
  rw [obj_stringify_shape]
  simp

theorem jsTrimL_obj (ms : List (String × Json)) :
    jsTrimL (stringifyL (Json.obj ms)) = stringifyL (Json.obj ms) := by
  rw [obj_stringify_shape]
  exact jsTrimL_eq_self '{' _ (by decide) '}'
    (by rw [← obj_stringify_shape]; exact obj_stringify_getLast ms) (by decide)

theorem extractJson_of_fence (raw : String) (ms : List (String × Json))
    (hTrim : jsTrimL raw.data = raw.data)
    (hEx : fenceExec raw.data = some (stringifyL (Json.obj ms))) :
    extractJson raw = jsonStringify (.obj ms) := by
  show String.mk (braceSlice
      (match fenceExec (jsTrimL raw.data) with
       | some g => if g ≠ [] then jsTrimL g else jsTrimL raw.data
       | none => jsTrimL raw.data)) = jsonStringify (.obj ms)
  rw [hTrim, hEx]
  show String.mk (braceSlice
      (if stringifyL (Json.obj ms) ≠ [] then jsTrimL (stringifyL (Json.obj ms))
       else raw.data)) = jsonStringify (.obj ms)
  rw [if_pos (obj_stringify_ne_nil ms), jsTrimL_obj ms, braceSlice_obj ms]
  rfl

theorem extractJson_fenceWrap (useTag : Bool) (ms : List (String × Json))
    (hterm : ∀ d ∈ stringifyL (Json.obj ms), isLineTerm d = false) :
    extractJson (fenceWrap useTag (jsonStringify (.obj ms)))
      = jsonStringify (.obj ms) := by
  have hW0 : (fenceWrap useTag (jsonStringify (.obj ms))).data
      = ((fenceChars ++ (if useTag then jsonTagChars else [])) ++
          ('\n' :: stringifyL (Json.obj ms))) ++ ('\n' :: fenceChars) := rfl
  have hlastW : (fenceWrap useTag (jsonStringify (.obj ms))).data.getLast?
      = some backquote := by
    rw [hW0, List.getLast?_append]
    rfl
  cases useTag with
  | true =>
      have hWn : (fenceWrap true (jsonStringify (.obj ms))).data
          = backquote :: backquote :: backquote ::
              ('j' :: 's' :: 'o' :: 'n' ::
                ('\n' :: (stringifyL (Json.obj ms) ++ '\n' :: fenceChars))) := by
        rw [hW0]
        simp [fenceChars, jsonTagChars]
      have hTrimW : jsTrimL (fenceWrap true (jsonStringify (.obj ms))).data
          = (fenceWrap true (jsonStringify (.obj ms))).data := by
        rw [hWn] at hlastW ⊢
        exact jsTrimL_eq_self backquote _ (by decide) backquote
          (by simpa using hlastW) (by decide)
      have hpre : jsonTagChars.isPrefixOf
          ('j' :: 's' :: 'o' :: 'n' ::
            ('\n' :: (stringifyL (Json.obj ms) ++ '\n' :: fenceChars))) = true := by
        simp [jsonTagChars, List.isPrefixOf]
      have hAt : fenceAt (fenceWrap true (jsonStringify (.obj ms))).data
          = some (stringifyL (Json.obj ms)) := by
        rw [hWn, fenceAt_open, if_pos hpre]
        show fenceBody
            (('\n' :: (stringifyL (Json.obj ms) ++ '\n' :: fenceChars)).dropWhile isJsWs)
          = some (stringifyL (Json.obj ms))
        rw [dropNl_body ms]
        exact fenceBody_obj ms hterm
      exact extractJson_of_fence _ ms hTrimW (fenceExec_of_at _ _ hAt)
  | false =>
      have hWn : (fenceWrap false (jsonStringify (.obj ms))).data
          = backquote :: backquote :: backquote ::
              ('\n' :: (stringifyL (Json.obj ms) ++ '\n' :: fenceChars)) := by
        rw [hW0]
        simp [fenceChars]
      have hTrimW : jsTrimL (fenceWrap false (jsonStringify (.obj ms))).data
          = (fenceWrap false (jsonStringify (.obj ms))).data := by
        rw [hWn] at hlastW ⊢
        exact jsTrimL_eq_self backquote _ (by decide) backquote
          (by simpa using hlastW) (by decide)
      have hj : ('j' == '\n') = false := by decide
      have hpre : jsonTagChars.isPrefixOf
          ('\n' :: (stringifyL (Json.obj ms) ++ '\n' :: fenceChars)) = false := by
        simp [jsonTagChars, List.isPrefixOf, hj]
      have hAt : fenceAt (fenceWrap false (jsonStringify (.obj ms))).data
          = some (stringifyL (Json.obj ms)) := by
        rw [hWn, fenceAt_open, if_neg (by simp [hpre])]
        rw [dropNl_body ms]
        exact fenceBody_obj ms hterm
      exact extractJson_of_fence _ ms hTrimW (fenceExec_of_at _ _ hAt)

theorem jsonParse_fenceWrap_none (useTag : Bool) (s : String) :
    jsonParse (fenceWrap useTag s) = none := by
  have hT : (fenceWrap useTag s).data
      = backquote :: (((backquote :: backquote :: (if useTag then jsonTagChars else []))
          ++ ('\n' :: s.data)) ++ ('\n' :: fenceChars)) := rfl
  show (match parseJValue ((fenceWrap useTag s).data.length + 1) (fenceWrap useTag s).data with
        | none => none
        | some (j, rest) => if dropWs rest = [] then some j else none) = none
  rw [hT, parseJValue_backquote]

theorem repairAttempt_fenceWrap (useTag : Bool) (v : CopilotResponse)
    (h0 : 0 ≤ v.confidenceScore) (h1 : v.confidenceScore ≤ 1)
    (hn : jsonNumsOK (responseToJson v) = true)
    (hterm : noLineTerm (stringifyL (responseToJson v)) = true) :
    repairAttempt (fenceWrap useTag (jsonStringify (responseToJson v))) = some v := by
  have hterm2 : ∀ d ∈ stringifyL (responseToJson v), isLineTerm d = false := by
    intro d hd
    have := List.all_eq_true.mp hterm d hd
    simpa using this
  have hms : responseToJson v
      = Json.obj [("summary", .str v.summary),
          ("insights", .arr (v.insights.map insightToJson)),
          ("suggestedActions", .arr (v.suggestedActions.map suggestedActionToJson)),
          ("warnings", .arr (v.warnings.map Json.str)),
          ("confidenceScore", .num v.confidenceScore)] := rfl
  have hex : extractJson (fenceWrap useTag (jsonStringify (responseToJson v)))
      = jsonStringify (responseToJson v) := by
    rw [hms]
    exact extractJson_fenceWrap useTag _ (hms ▸ hterm2)
  show (match jsonParse (extractJson (fenceWrap useTag (jsonStringify (responseToJson v)))) with
        | none => none
        | some parsed => copilotSafeParse parsed) = some v
  rw [hex, jsonParse_jsonStringify _ hn]
  show copilotSafeParse (responseToJson v) = some v
  exact copilotSafeParse_responseToJson v h0 h1

/-- Claim C4 (amended): for every schema-conforming response value whose
serialized JSON text contains no raw ECMAScript line terminator — LF and
CR never occur, since JSON.stringify escapes them, but U+2028 and U+2029
pass through unescaped and must be absent — wrapping the serialization in
a single outer fenced block (with or without the json language tag) makes
the direct JSON.parse fail, the repair pass — strip the fence, then slice
from the first opening brace to the last closing brace — recovers exactly
the serialized object text, and the engine returns exactly the wrapped
value.  Without that restriction the original claim fails: see the
counterexample, where a summary holding a backquote fence followed by a
raw U+2028 makes the regexp's multiline close fire inside the JSON. -/
theorem claim_C4_fence_repair (v : CopilotResponse) (useTag : Bool)
    (h0 : 0 ≤ v.confidenceScore) (h1 : v.confidenceScore ≤ 1)
    (hn : jsonNumsOK (responseToJson v) = true)
    (hterm : noLineTerm (stringifyL (responseToJson v)) = true) :
    jsonParse (fenceWrap useTag (jsonStringify (responseToJson v))) = none ∧
    extractJson (fenceWrap useTag (jsonStringify (responseToJson v)))
      = jsonStringify (responseToJson v) ∧
    parseAndValidate (fenceWrap useTag (jsonStringify (responseToJson v))) = some v := by
  have hjp := jsonParse_fenceWrap_none useTag (jsonStringify (responseToJson v))
  have hra := repairAttempt_fenceWrap useTag v h0 h1 hn hterm
  refine ⟨hjp, ?_, ?_⟩
  · have hms : responseToJson v
        = Json.obj [("summary", .str v.summary),
            ("insights", .arr (v.insights.map insightToJson)),
            ("suggestedActions", .arr (v.suggestedActions.map suggestedActionToJson)),
            ("warnings", .arr (v.warnings.map Json.str)),
            ("confidenceScore", .num v.confidenceScore)] := rfl
    have hterm2 : ∀ d ∈ stringifyL (responseToJson v), isLineTerm d = false := by
      intro d hd
      have := List.all_eq_true.mp hterm d hd
      simpa using this
    rw [hms]
    exact extractJson_fenceWrap useTag _ (hms ▸ hterm2)
  · show (match jsonParse (fenceWrap useTag (jsonStringify (responseToJson v))) with
      | some parsed =>
          match copilotSafeParse parsed with
          | some r => some r
          | none => repairAttempt (fenceWrap useTag (jsonStringify (responseToJson v)))
      | none => repairAttempt (fenceWrap useTag (jsonStringify (responseToJson v)))) = some v
    rw [hjp]
    exact hra

set_option maxRecDepth 10000 in
theorem claim_C4_fence_repair_witness :
    (0 ≤ FALLBACK_RESPONSE.confidenceScore ∧ FALLBACK_RESPONSE.confidenceScore ≤ 1 ∧
     jsonNumsOK (responseToJson FALLBACK_RESPONSE) = true ∧
     noLineTerm (stringifyL (responseToJson FALLBACK_RESPONSE)) = true) ∧
    (jsonParse (fenceWrap true (jsonStringify (responseToJson FALLBACK_RESPONSE))) = none ∧
     extractJson (fenceWrap true (jsonStringify (responseToJson FALLBACK_RESPONSE)))
       = jsonStringify (responseToJson FALLBACK_RESPONSE) ∧
     parseAndValidate (fenceWrap true (jsonStringify (responseToJson FALLBACK_RESPONSE)))
       = some FALLBACK_RESPONSE) :=
  ⟨⟨by decide, by decide, rfl, by with_unfolding_all rfl⟩,
   claim_C4_fence_repair FALLBACK_RESPONSE true (by decide) (by decide) rfl
     (by with_unfolding_all rfl)⟩

set_option maxRecDepth 10000 in
/-- Claim C4 counterexample to the original, unrestricted statement: the
schema-conforming value C4_BAD, whose summary holds a backquote fence
followed by a raw U+2028 line separator, validates against the strict
schema, yet the engine run on its serialization wrapped in a single outer
fenced block returns the failure signal rather than the wrapped value:
the multiline `$` of the fence regexp matches before the unescaped
U+2028, the lazy close fires inside the JSON text, the brace slice finds
no closing brace, and both parse attempts fail. -/
theorem claim_C4_fence_counterexample :
    copilotSafeParse (responseToJson C4_BAD) = some C4_BAD ∧
    jsonNumsOK (responseToJson C4_BAD) = true ∧
    parseAndValidate (fenceWrap true (jsonStringify (responseToJson C4_BAD))) = none ∧
    parseAndValidate (fenceWrap false (jsonStringify (responseToJson C4_BAD))) = none :=
  ⟨by with_unfolding_all rfl, by with_unfolding_all rfl,
   by with_unfolding_all rfl, by with_unfolding_all rfl⟩
